import Mathlib

/-!
# Verification of the borsaci task scheduler and orchestration loop

Shallow embedding of `src/borsaci/agent.py` (class `BorsaAgent`) together with
the data model of `src/borsaci/schemas.py`.

Modelling conventions:
* Python `int` is embedded as `Int`; Python `float` confidences as `ℚ`.
* Python `dict` is embedded as an insertion-ordered association list
  (`List (Int × α)`) with `dictSet` reproducing dict assignment (update in
  place, append if the key is new) and `dictGet` reproducing lookup.
  `collections.defaultdict(list)` (the `graph` variable) is embedded as a
  total function `Int → List Int` whose default value is `[]`, which is
  exactly its read semantics.
* In `_build_execution_plan`, `in_degree` and `task_map` are plain dicts
  whose lookups could raise `KeyError`; every lookup performed by the code
  is at a key that is a task id (the seed queue comes from `in_degree`'s
  keys and `graph`'s values are task ids), so the `KeyError` branch is
  unreachable for every input and the total embedding (`dictGetD` / a
  `filterMap` over `dictGet`) agrees with the source on all inputs.
* The Python `while queue` loop is embedded with explicit fuel
  `tasks.length + 1`.  Every id is enqueued at most once (its stored
  in-degree strictly decreases at each touch, so it crosses `0` at most
  once), each loop iteration pops at least one id, and all enqueued ids are
  task ids, so the number of iterations is at most `tasks.length` and the
  fuel is never exhausted: the fuelled embedding agrees with the source's
  unbounded loop on all inputs.
* LLM/tool calls (router, planner, actor, validator, synthesizer) are
  external collaborators; they are modelled by a deterministic environment
  `Env` giving the outcome (result, timeout, or raised exception) of each
  call, exactly the three outcomes the `try/except` blocks of the source
  distinguish.  Chart rendering (`_create_chart_from_data`) is presentation
  glue outside every claim and is not modelled.
-/

namespace Borsaci

/-! ## Python dict embedding -/

/-- Python dict assignment `d[k] = v`: update in place if the key exists
(keeping its position, as dicts preserve insertion order), else append. -/
def dictSet {α : Type} : List (Int × α) → Int → α → List (Int × α)
  | [], k, v => [(k, v)]
  | (k', v') :: rest, k, v =>
      if k' = k then (k, v) :: rest else (k', v') :: dictSet rest k v

/-- Python dict lookup `d[k]` (first, hence unique, matching key). -/
def dictGet {α : Type} : List (Int × α) → Int → Option α
  | [], _ => none
  | (k', v') :: rest, k => if k' = k then some v' else dictGet rest k

/-- Python `d.get(k, dflt)`. -/
def dictGetD {α : Type} (d : List (Int × α)) (k : Int) (dflt : α) : α :=
  (dictGet d k).getD dflt

/-- Python `dict(pairs)`: insert the pairs left to right (last value wins). -/
def dictOfList {α : Type} (l : List (Int × α)) : List (Int × α) :=
  l.foldl (fun d p => dictSet d p.1 p.2) []

/-- The keys of a dict, in insertion order. -/
def dictKeys {α : Type} (d : List (Int × α)) : List Int := d.map Prod.fst

/-! ## Data model (`schemas.py`) -/

/-- `schemas.Task`. -/
structure Task where
  id : Int
  description : String
  done : Bool := false
  tool_name : Option String := none
  depends_on : List Int := []
deriving Repr, DecidableEq

/-- `schemas.IsDone` (confidence is a float in `[0,1]`, embedded as `ℚ`). -/
structure IsDone where
  done : Bool
  reason : String
  confidence : ℚ
deriving Repr, DecidableEq

/-- `schemas.BaseResponse` (the router's structured output). -/
structure BaseResponse where
  is_simple : Bool
  is_buffett : Bool := false
  confidence : ℚ
  answer : Option String := none
  reasoning : String
deriving Repr, DecidableEq

instance {ε α : Type} [DecidableEq ε] [DecidableEq α] :
    DecidableEq (Except ε α) := fun x y =>
  match x, y with
  | .ok a, .ok b => decidable_of_iff (a = b) (by simp)
  | .error a, .error b => decidable_of_iff (a = b) (by simp)
  | .ok _, .error _ => isFalse fun h => Except.noConfusion h
  | .error _, .ok _ => isFalse fun h => Except.noConfusion h

/-- The ids of a task list, in order (`[task.id for task in tasks]`). -/
def taskIds (tasks : List Task) : List Int := tasks.map Task.id

/-! ## `_build_execution_plan` (agent.py lines 140-216) -/

/-- `RuntimeError("Circular dependency detected! Unprocessed tasks: …")`,
carrying the list of unprocessed task ids it is formatted from. -/
inductive PlanError where
  | circular (unprocessed : List Int)
deriving Repr, DecidableEq

/-- `task_map = {task.id: task for task in tasks}`. -/
def buildTaskMap (tasks : List Task) : List (Int × Task) :=
  tasks.foldl (fun m t => dictSet m t.id t) []

/-- `in_degree = {task.id: 0 for task in tasks}`. -/
def inDegreeInit (tasks : List Task) : List (Int × Int) :=
  tasks.foldl (fun m t => dictSet m t.id 0) []

/-- Body of the graph-construction loop for one task `t`:
`in_degree[task.id] = len(task.depends_on)`, then for each `dep_id`, if it
is not in `task_map` decrement `in_degree[task.id]`, else append `task.id`
to `graph[dep_id]` (a `defaultdict(list)`). -/
def buildDepsStep (taskMap : List (Int × Task))
    (st : List (Int × Int) × (Int → List Int)) (t : Task) :
    List (Int × Int) × (Int → List Int) :=
  t.depends_on.foldl
    (fun st dep =>
      if (dictGet taskMap dep).isSome then
        (st.1, fun k => if k = dep then st.2 k ++ [t.id] else st.2 k)
      else
        (dictSet st.1 t.id (dictGetD st.1 t.id 0 - 1), st.2))
    (dictSet st.1 t.id (t.depends_on.length : Int), st.2)

/-- The whole graph-construction loop (`for task in tasks: …`). -/
def buildDeps (tasks : List Task) :
    List (Int × Int) × (Int → List Int) :=
  tasks.foldl (buildDepsStep (buildTaskMap tasks))
    (inDegreeInit tasks, fun _ => [])

/-- Decrement `in_degree[dep]` and enqueue `dep` if the new value is `0`:
the body of `for dependent_id in graph[task_id]: …`. -/
def decStep (st : List (Int × Int) × List Int) (dep : Int) :
    List (Int × Int) × List Int :=
  let newDeg := dictGetD st.1 dep 0 - 1
  (dictSet st.1 dep newDeg, if newDeg = 0 then st.2 ++ [dep] else st.2)

/-- Kahn's algorithm with level grouping (`while queue: …`).  One recursive
call per level; the whole current queue is popped as one level, dependents
are decremented, and ids reaching in-degree `0` form the next queue. -/
def kahnLoop (graph : Int → List Int) (taskMap : List (Int × Task)) :
    Nat → List (Int × Int) → List Int → List (List Task) → Nat →
    List (List Task) × Nat
  | 0, _, _, plan, processed => (plan, processed)
  | _ + 1, _, [], plan, processed => (plan, processed)
  | fuel + 1, inDeg, queue@(_ :: _), plan, processed =>
      let level := queue.filterMap fun tid => dictGet taskMap tid
      let st := queue.foldl (fun st tid => (graph tid).foldl decStep st)
        (inDeg, [])
      kahnLoop graph taskMap fuel st.1 st.2 (plan ++ [level])
        (processed + queue.length)

/-- `BorsaAgent._build_execution_plan`.  Returns the level sequence, or the
circular-dependency `RuntimeError` carrying the unprocessed task ids. -/
def build_execution_plan (tasks : List Task) :
    Except PlanError (List (List Task)) :=
  if tasks.isEmpty then .ok []
  else
    let taskMap := buildTaskMap tasks
    let st := buildDeps tasks
    let queue := (st.1.filter fun p => p.2 = 0).map Prod.fst
    let r := kahnLoop st.2 taskMap (tasks.length + 1) st.1 queue [] 0
    if r.2 < tasks.length then
      .error (.circular ((tasks.filter fun t =>
        ¬ t.id ∈ (r.1.flatten.map Task.id)).map Task.id))
    else
      .ok r.1

/-! ## Specification-level predicates about dependency graphs and plans -/

/-- `d` is a declared prerequisite of the task with id `b`, and `d` names an
existing task: the valid-dependency relation (dangling references are not
edges, matching the spec's "valid-dependency graph"). -/
def validDep (tasks : List Task) (d b : Int) : Prop :=
  ∃ t ∈ tasks, t.id = b ∧ d ∈ t.depends_on ∧ d ∈ taskIds tasks

/-- `rank` is a topological order witness for the valid-dependency graph:
every valid prerequisite has strictly smaller rank.  A finite directed graph
is acyclic exactly when such a rank exists, so "the valid-dependency graph
is acyclic" is formalised as `∃ rank, RankedAcyclic tasks rank`
(see `rankedAcyclic_no_cycle` for the soundness direction). -/
def RankedAcyclic (tasks : List Task) (rank : Int → Nat) : Prop :=
  ∀ t ∈ tasks, ∀ d ∈ t.depends_on, d ∈ taskIds tasks → rank d < rank t.id

instance (tasks : List Task) (rank : Int → Nat) :
    Decidable (RankedAcyclic tasks rank) := by
  unfold RankedAcyclic
  infer_instance

/-- Every task of level `j` has all its valid prerequisites in a strictly
earlier level. -/
def LevelsOk (tasks : List Task) (plan : List (List Task)) : Prop :=
  ∀ (j : Nat) (group : List Task), plan[j]? = some group →
    ∀ t ∈ group, ∀ d ∈ t.depends_on, d ∈ taskIds tasks →
      ∃ (i : Nat) (group' : List Task), i < j ∧ plan[i]? = some group' ∧
        ∃ u ∈ group', u.id = d

/-- Some task with id `a` appears in level `j` of the plan. -/
def InLevel (plan : List (List Task)) (j : Nat) (a : Int) : Prop :=
  ∃ (group : List Task), plan[j]? = some group ∧ ∃ u ∈ group, u.id = a

/-- Number of valid prerequisites of `t` whose task has not yet been popped
(`P` is the list of popped ids): the semantic value tracked by `in_degree`. -/
def remDeg (tasks : List Task) (P : List Int) (t : Task) : Nat :=
  t.depends_on.countP fun d => decide (d ∈ taskIds tasks) && decide (d ∉ P)

/-- Loop invariant of `kahnLoop` at a level boundary, for a task list with
unique ids.  The popped ids are the ids of the flattened plan so far, in pop
order. -/
structure KahnInv (tasks : List Task) (inDeg : List (Int × Int))
    (queue : List Int) (plan : List (List Task)) (processed : Nat) :
    Prop where
  keys : dictKeys inDeg = taskIds tasks
  deg : ∀ t ∈ tasks, dictGet inDeg t.id =
    some ((remDeg tasks (plan.flatten.map Task.id) t : Nat) : Int)
  pnodup : (plan.flatten.map Task.id).Nodup
  qnodup : queue.Nodup
  psub : ∀ v ∈ plan.flatten.map Task.id, v ∈ taskIds tasks
  qsub : ∀ v ∈ queue, v ∈ taskIds tasks
  pqdisj : ∀ v ∈ queue, v ∉ plan.flatten.map Task.id
  qchar : ∀ t ∈ tasks, (t.id ∈ queue ↔
    t.id ∉ plan.flatten.map Task.id ∧
      remDeg tasks (plan.flatten.map Task.id) t = 0)
  pzero : ∀ t ∈ tasks, t.id ∈ plan.flatten.map Task.id →
    remDeg tasks (plan.flatten.map Task.id) t = 0
  planTasks : ∀ u ∈ plan.flatten, dictGet (buildTaskMap tasks) u.id = some u
  levels : LevelsOk tasks plan
  proc : processed = (plan.flatten.map Task.id).length

/-! ## Orchestration loop (`run`, agent.py lines 261-545)

External calls are parameterised by an environment; everything the source's
`try/except` blocks distinguish (result / `asyncio.TimeoutError` / other
exception) is one constructor. -/

/-- Outcome of one actor (`self.actor.run`) call in `_execute_task`: the
extracted `tool_result` string (possibly empty/falsy), a timeout, or any
other exception. -/
inductive ActorOutcome where
  | ok (result : String)
  | timeout
  | error (msg : String)
deriving Repr, DecidableEq

/-- Outcome of one validator (`self.validator.run`) call in `_validate_task`. -/
inductive ValidatorOutcome where
  | ok (verdict : IsDone)
  | timeout
  | error (msg : String)
deriving Repr, DecidableEq

/-- Deterministic environment giving the outcome of every external call of
one `run()` invocation.  The actor outcome may depend on the task id, the
iteration index and the task's current outputs (the prompt embeds the last
two outputs); the validator outcome on the task id and the outputs. -/
structure Env where
  router : Option BaseResponse
  planner : Option (List Task)
  actor : Int → Nat → List String → ActorOutcome
  validator : Int → List String → ValidatorOutcome
  taskRaises : Int → Option String
  parallelEnabled : Bool
  answerer : List String → String

/-- `BorsaAgent._validate_task`: on timeout assume done (confidence `0.5`),
on any other exception assume not done (confidence `0.3`). -/
def validate_task (env : Env) (tid : Int) (outputs : List String) : IsDone :=
  match env.validator tid outputs with
  | .ok r => r
  | .timeout =>
      ⟨true, "Doğrulama zaman aşımı - varsayılan olarak tamamlandı", 1/2⟩
  | .error e => ⟨false, "Doğrulama hatası: " ++ e, 3/10⟩

/-- The iteration loop of `BorsaAgent._execute_task`
(`for iteration in range(self.max_steps_per_task)`), with `fuel` the number
of range elements left.  A timeout appends the timeout message and breaks
(before the validation call); a result or an exception appends (a falsy
result is not appended) and then consults the validator. -/
def executeTaskIter (env : Env) (maxSteps maxStepsPerTask : Nat) (tid : Int)
    (currentStep : Nat) : Nat → Nat → List String → List String
  | _, 0, outputs => outputs
  | iteration, fuel + 1, outputs =>
    if maxSteps ≤ currentStep + iteration then outputs
    else
      match env.actor tid iteration outputs with
      | .timeout => outputs ++ ["İşlem zaman aşımına uğradı"]
      | .ok s =>
          let outputs' := if s = "" then outputs else outputs ++ [s]
          if (validate_task env tid outputs').done then outputs'
          else
            executeTaskIter env maxSteps maxStepsPerTask tid currentStep
              (iteration + 1) fuel outputs'
      | .error e =>
          let outputs' := outputs ++ ["Araç çağrısı başarısız: " ++ e]
          if (validate_task env tid outputs').done then outputs'
          else
            executeTaskIter env maxSteps maxStepsPerTask tid currentStep
              (iteration + 1) fuel outputs'

/-- `BorsaAgent._execute_task` (returns the task's output list). -/
def execute_task (env : Env) (maxSteps maxStepsPerTask : Nat) (tid : Int)
    (currentStep : Nat) : List String :=
  executeTaskIter env maxSteps maxStepsPerTask tid currentStep 0
    maxStepsPerTask []

/-- `execute_single` inside `_execute_task_group_parallel`: runs one task,
catching any exception that escapes `_execute_task` and turning it into a
single error-string output. -/
def execute_single (env : Env) (maxSteps maxStepsPerTask currentStep : Nat)
    (t : Task) : Int × List String :=
  match env.taskRaises t.id with
  | some e => (t.id, ["Task " ++ toString t.id ++ " failed: " ++ e])
  | none => (t.id, execute_task env maxSteps maxStepsPerTask t.id currentStep)

/-- `BorsaAgent._execute_task_group_parallel`: `asyncio.gather` returns the
per-task results in argument order; the caller turns them into a dict. -/
def execute_task_group_parallel (env : Env)
    (maxSteps maxStepsPerTask currentStep : Nat) (group : List Task) :
    List (Int × List String) :=
  group.map (execute_single env maxSteps maxStepsPerTask currentStep)

/-- The flush loop after a parallel group in `run`:
`for task in task_group: session_outputs.extend(outputs_dict.get(task.id, []));
step_count += len(task_outputs)`. -/
def flushGroup (outputsDict : List (Int × List String)) (group : List Task)
    (acc : List String × Nat) : List String × Nat :=
  group.foldl
    (fun acc t =>
      let outs := dictGetD outputsDict t.id []
      (acc.1 ++ outs, acc.2 + outs.length))
    acc

/-- The sequential branch of the level loop in `run` (single task in the
group, or parallel execution disabled): each task is guarded by the global
budget before it starts. -/
def seqTasks (env : Env) (maxSteps maxStepsPerTask : Nat) :
    List Task → List String × Nat → List String × Nat
  | [], acc => acc
  | t :: ts, acc =>
    if maxSteps ≤ acc.2 then acc
    else
      let outs := execute_task env maxSteps maxStepsPerTask t.id acc.2
      seqTasks env maxSteps maxStepsPerTask ts
        (acc.1 ++ outs, acc.2 + outs.length)

/-- The level loop of `run` (Step 3): check the global budget at each level
boundary, then execute the level in the parallel or sequential branch.
`acc` is `(session_outputs, step_count)`. -/
def runLevels (env : Env) (maxSteps maxStepsPerTask : Nat) :
    List (List Task) → List String × Nat → List String × Nat
  | [], acc => acc
  | group :: rest, acc =>
    if maxSteps ≤ acc.2 then acc
    else
      let acc' :=
        if env.parallelEnabled ∧ 1 < group.length then
          flushGroup
            (dictOfList
              (execute_task_group_parallel env maxSteps maxStepsPerTask
                acc.2 group))
            group acc
        else seqTasks env maxSteps maxStepsPerTask group acc
      runLevels env maxSteps maxStepsPerTask rest acc'

/-- The distinct return sites of `BorsaAgent.run`: the simple direct answer
(Step 0 early return), the no-tasks direct synthesis, and the full planned
execution ending in synthesis. -/
inductive RunOutcome where
  | simple (answer : String)
  | noTasks (answer : String)
  | planned (sessionOutputs : List String) (stepCount : Nat) (answer : String)
deriving Repr, DecidableEq

/-- Steps 1-3 of `BorsaAgent.run`: plan tasks (a planner timeout yields no
tasks), build the execution plan (a cycle propagates the `RuntimeError`),
execute the levels, synthesize. -/
def planPhase (env : Env) (maxSteps maxStepsPerTask : Nat) :
    Except PlanError RunOutcome :=
  let tasks := env.planner.getD []
  if tasks.isEmpty then .ok (.noTasks (env.answerer []))
  else
    match build_execution_plan tasks with
    | .error e => .error e
    | .ok plan =>
        let r := runLevels env maxSteps maxStepsPerTask plan ([], 0)
        .ok (.planned r.1 r.2 (env.answerer r.1))

/-- `BorsaAgent.run`: route (Step 0), take the simple direct answer when
`is_simple and confidence > 0.7` (the direct answer falls back to the
reasoning text when falsy), otherwise — including on router timeout — fall
through to the planning phase. -/
def run (env : Env) (maxSteps maxStepsPerTask : Nat) :
    Except PlanError RunOutcome :=
  match env.router with
  | none => planPhase env maxSteps maxStepsPerTask
  | some br =>
    if br.is_simple = true ∧ br.confidence > 7/10 then
      .ok (.simple
        (match br.answer with
          | some a => if a = "" then br.reasoning else a
          | none => br.reasoning))
    else planPhase env maxSteps maxStepsPerTask

/-- `BorsaAgent.__init__`:
`self.max_steps = max_steps or int(os.getenv("MAX_STEPS", "20"))`.
Python `or` takes the right operand when the left is falsy, i.e. when the
argument is `None` or `0`.  `envDefault` is the parsed environment default
(20 when `MAX_STEPS` is unset). -/
def initMaxSteps (max_steps : Option Int) (envDefault : Int) : Int :=
  match max_steps with
  | none => envDefault
  | some v => if v = 0 then envDefault else v

/-! ## Derived specification functions (not source code): level traces -/

/-- Derived specification: the outputs one level contributes when the level
loop reaches it with step count `step` (both branches). -/
def levelOutputs (env : Env) (maxSteps maxStepsPerTask step : Nat)
    (group : List Task) : List String :=
  if env.parallelEnabled ∧ 1 < group.length then
    (flushGroup
      (dictOfList
        (execute_task_group_parallel env maxSteps maxStepsPerTask step group))
      group ([], step)).1
  else (seqTasks env maxSteps maxStepsPerTask group ([], step)).1

/-- Derived specification: the trace of levels that actually execute, each
paired with the step count at which it starts. -/
def runLevelsTrace (env : Env) (maxSteps maxStepsPerTask : Nat) :
    List (List Task) → Nat → List (Nat × List String)
  | [], _ => []
  | group :: rest, step =>
    if maxSteps ≤ step then []
    else
      let louts := levelOutputs env maxSteps maxStepsPerTask step group
      (step, louts) ::
        runLevelsTrace env maxSteps maxStepsPerTask rest (step + louts.length)

/-- Modelled from the spec, not from the source: the spec's actor-iteration
sentence has every iteration append "a textual result (or a timeout/error
message as a degraded result)" to the task's local output list and then
invoke the Validator on the updated list before the loop decides to stop or
continue — including after a timeout.  The source instead breaks out of the
loop right after appending the timeout message, without consulting the
validator (compare `executeTaskIter`). -/
def executeTaskIterSpec (env : Env) (maxSteps maxStepsPerTask : Nat)
    (tid : Int) (currentStep : Nat) : Nat → Nat → List String → List String
  | _, 0, outputs => outputs
  | iteration, fuel + 1, outputs =>
    if maxSteps ≤ currentStep + iteration then outputs
    else
      let outputs' :=
        match env.actor tid iteration outputs with
        | .timeout => outputs ++ ["İşlem zaman aşımına uğradı"]
        | .ok s => if s = "" then outputs else outputs ++ [s]
        | .error e => outputs ++ ["Araç çağrısı başarısız: " ++ e]
      if (validate_task env tid outputs').done then outputs'
      else
        executeTaskIterSpec env maxSteps maxStepsPerTask tid currentStep
          (iteration + 1) fuel outputs'

/-! ## Concrete inputs used by the examples -/

/-- An actor that always returns the non-empty result `"a"`. -/
def wActor : Int → Nat → List String → ActorOutcome := fun _ _ _ => .ok "a"

/-- A validator that always answers `done = true`. -/
def wValidator : Int → List String → ValidatorOutcome :=
  fun _ _ => .ok ⟨true, "ok", 1⟩

/-- Two independent tasks. -/
def wGroup2 : List Task :=
  [⟨1, "t1", false, none, []⟩, ⟨2, "t2", false, none, []⟩]

/-- Three independent tasks. -/
def wGroup3 : List Task :=
  [⟨1, "t1", false, none, []⟩, ⟨2, "t2", false, none, []⟩,
   ⟨3, "t3", false, none, []⟩]

/-- An environment where every task succeeds in one step. -/
def wEnv : Env :=
  ⟨none, none, wActor, wValidator, fun _ => none, true, fun _ => "done"⟩

/-- An environment where executing task 2 raises `"boom"`. -/
def wEnvFail2 : Env :=
  ⟨none, none, wActor, wValidator,
   fun i => if i = 2 then some "boom" else none, true, fun _ => "done"⟩

/-- An environment whose router confidently flags the query simple. -/
def wEnvRouter : Env :=
  ⟨some ⟨true, false, 19/20, some "Ankara", "r"⟩, none, wActor, wValidator,
   fun _ => none, true, fun _ => ""⟩

/-- An environment whose actor always times out and whose validator always
answers `done = false`. -/
def wEnvTimeout : Env :=
  ⟨none, none, fun _ _ _ => .timeout, fun _ _ => .ok ⟨false, "no", 0⟩,
   fun _ => none, true, fun _ => ""⟩

/-- An environment that plans one task which succeeds in one step. -/
def wEnvPlanned : Env :=
  ⟨none, some [⟨1, "t1", false, none, []⟩], wActor, wValidator,
   fun _ => none, true, fun _ => "synth"⟩

end Borsaci

namespace Borsaci

/-! ## Theorems: dict lemmas -/

theorem dictGet_dictSet_self {α : Type} (d : List (Int × α)) (k : Int) (v : α) :
    dictGet (dictSet d k v) k = some v := by
  induction d with
  | nil => simp [dictSet, dictGet]
  | cons p rest ih =>
    by_cases h : p.1 = k
    · simp [dictSet, dictGet, h]
    · simp [dictSet, dictGet, h, ih]

theorem dictGet_dictSet_ne {α : Type} (d : List (Int × α)) {k k' : Int}
    (v : α) (h : k ≠ k') : dictGet (dictSet d k v) k' = dictGet d k' := by
  induction d with
  | nil => simp [dictSet, dictGet, h]
  | cons p rest ih =>
    by_cases hp : p.1 = k
    · simp [dictSet, dictGet, hp, h]
    · simp only [dictSet, if_neg hp]
      by_cases hp' : p.1 = k'
      · simp [dictGet, hp']
      · simp [dictGet, hp', ih]

theorem dictSet_dictSet_self {α : Type} (d : List (Int × α)) (k : Int)
    (v w : α) : dictSet (dictSet d k v) k w = dictSet d k w := by
  induction d with
  | nil => simp [dictSet]
  | cons p rest ih =>
    by_cases h : p.1 = k
    · simp [dictSet, h]
    · simp [dictSet, h, ih]

theorem dictGet_eq_none_iff {α : Type} (d : List (Int × α)) (k : Int) :
    dictGet d k = none ↔ k ∉ dictKeys d := by
  induction d with
  | nil => simp [dictGet, dictKeys]
  | cons p rest ih =>
    by_cases h : p.1 = k
    · simp [dictGet, dictKeys, h]
    · simp [dictGet, dictKeys, h, ih, Ne.symm h]

theorem dictGet_isSome_iff {α : Type} (d : List (Int × α)) (k : Int) :
    (dictGet d k).isSome = true ↔ k ∈ dictKeys d := by
  cases hg : dictGet d k with
  | none =>
    simp only [Option.isSome_none, Bool.false_eq_true, false_iff]
    exact (dictGet_eq_none_iff d k).1 hg
  | some v =>
    simp only [Option.isSome_some, true_iff]
    by_contra hk
    rw [(dictGet_eq_none_iff d k).2 hk] at hg
    exact Option.noConfusion hg

theorem dictKeys_dictSet_of_mem {α : Type} {d : List (Int × α)} {k : Int}
    (v : α) (h : k ∈ dictKeys d) : dictKeys (dictSet d k v) = dictKeys d := by
  induction d with
  | nil => simp [dictKeys] at h
  | cons p rest ih =>
    by_cases hp : p.1 = k
    · simp [dictSet, dictKeys, hp]
    · have h2 : k ∈ dictKeys rest := by
        simpa [dictKeys, Ne.symm hp] using h
      have h3 := ih h2
      simp only [dictKeys, List.map_cons] at h3 ⊢
      simp [dictSet, if_neg hp, h3]

theorem dictGet_mem_iff {α : Type} {d : List (Int × α)}
    (hd : (dictKeys d).Nodup) (k : Int) (v : α) :
    dictGet d k = some v ↔ (k, v) ∈ d := by
  induction d with
  | nil => simp [dictGet]
  | cons p rest ih =>
    obtain ⟨a, b⟩ := p
    simp only [dictKeys, List.map_cons, List.nodup_cons] at hd
    by_cases h : a = k
    · subst h
      constructor
      · intro hv
        have hb : b = v := by simpa [dictGet] using hv
        subst hb
        exact List.mem_cons_self _ _
      · intro hm
        rcases List.mem_cons.1 hm with he | hm
        · have hv : v = b := congrArg Prod.snd he
          simp [dictGet, hv]
        · exact absurd (List.mem_map_of_mem Prod.fst hm) (by simpa using hd.1)
    · simp only [dictGet, if_neg h, List.mem_cons, Prod.mk.injEq]
      rw [ih hd.2]
      constructor
      · exact Or.inr
      · rintro (⟨hk, -⟩ | hm)
        · exact absurd hk.symm h
        · exact hm

/-! ## Theorems: counting helpers -/

/-- Split a `countP` along a pointwise disjoint union of predicates. -/
theorem countP_or_disjoint {α : Type} (l : List α) (p q r : α → Bool)
    (h : ∀ x ∈ l, (p x = true ↔ (q x = true ∨ r x = true)) ∧
      ¬(q x = true ∧ r x = true)) :
    l.countP p = l.countP q + l.countP r := by
  induction l with
  | nil => simp
  | cons a l ih =>
    have ha := h a (List.mem_cons_self _ _)
    have ih' := ih fun x hx => h x (List.mem_cons_of_mem _ hx)
    simp only [List.countP_cons, ih']
    by_cases hq : q a = true
    · have hp : p a = true := ha.1.2 (Or.inl hq)
      have hr : ¬ r a = true := fun hr => ha.2 ⟨hq, hr⟩
      simp [hp, hq, hr]
      omega
    · by_cases hr : r a = true
      · have hp : p a = true := ha.1.2 (Or.inr hr)
        simp [hp, hq, hr]
        omega
      · have hp : ¬ p a = true := fun hp => by
          rcases ha.1.1 hp with h' | h'
          · exact hq h'
          · exact hr h'
        simp [hp, hq, hr]

/-- Summing `l.count x` over a duplicate-free list of `x`s counts the
elements of `l` lying in that list. -/
theorem sum_count_eq_countP (q : List Int) (hq : q.Nodup) (l : List Int) :
    (q.map fun x => l.count x).sum = l.countP fun d => decide (d ∈ q) := by
  induction q with
  | nil => simp [List.countP_eq_zero]
  | cons a q ih =>
    simp only [List.nodup_cons] at hq
    simp only [List.map_cons, List.sum_cons, ih hq.2]
    have : l.countP (fun d => decide (d ∈ a :: q)) =
        l.countP (fun d => decide (d = a)) +
        l.countP (fun d => decide (d ∈ q)) := by
      refine countP_or_disjoint l _ _ _ fun x hx => ?_
      constructor
      · simp [List.mem_cons]
      · rintro ⟨h1, h2⟩
        simp only [decide_eq_true_eq] at h1 h2
        exact hq.1 (h1 ▸ h2)
    rw [this]
    have hc : l.countP (fun d => decide (d = a)) = l.count a := by
      unfold List.count
      congr 1
    omega

/-- `count` of a `flatMap` is the sum of the member counts. -/
theorem count_flatMap (g : Int → List Int) (q : List Int) (v : Int) :
    (q.flatMap g).count v = (q.map fun x => (g x).count v).sum := by
  induction q with
  | nil => simp
  | cons a q ih => simp [List.flatMap_cons, List.count_append, ih]

end Borsaci

namespace Borsaci

/-! ## Theorems: more dict lemmas -/

theorem dictSet_eq_self_of_get {α : Type} {d : List (Int × α)} {k : Int}
    {v : α} (h : dictGet d k = some v) : dictSet d k v = d := by
  induction d with
  | nil => simp [dictGet] at h
  | cons p rest ih =>
    obtain ⟨a, b⟩ := p
    by_cases hp : a = k
    · subst hp
      have hv : b = v := by simpa [dictGet] using h
      subst hv
      simp [dictSet]
    · have h' : dictGet rest k = some v := by simpa [dictGet, hp] using h
      simp [dictSet, hp, ih h']

theorem mem_dictKeys_dictSet {α : Type} (d : List (Int × α)) (k k' : Int)
    (v : α) : k' ∈ dictKeys (dictSet d k v) ↔ k' ∈ dictKeys d ∨ k' = k := by
  induction d with
  | nil => simp [dictSet, dictKeys]
  | cons p rest ih =>
    by_cases hp : p.1 = k
    · subst hp
      obtain ⟨a, b⟩ := p
      simp only [dictSet, eq_self_iff_true, if_true, dictKeys, List.map_cons,
        List.mem_cons]
      tauto
    · obtain ⟨a, b⟩ := p
      simp only [dictSet] at hp ⊢
      rw [if_neg hp]
      simp only [dictKeys, List.map_cons, List.mem_cons]
      simp only [dictKeys] at ih
      rw [ih]
      tauto

theorem dictKeys_dictSet_of_not_mem {α : Type} {d : List (Int × α)} {k : Int}
    (v : α) (h : k ∉ dictKeys d) :
    dictKeys (dictSet d k v) = dictKeys d ++ [k] := by
  induction d with
  | nil => simp [dictSet, dictKeys]
  | cons p rest ih =>
    have hp : p.1 ≠ k := by
      intro he
      apply h
      simp only [dictKeys, List.map_cons, List.mem_cons]
      exact Or.inl he.symm
    have h' : k ∉ dictKeys rest := by
      intro hh
      apply h
      simp only [dictKeys, List.map_cons, List.mem_cons]
      exact Or.inr (by simpa [dictKeys] using hh)
    have ih' := ih h'
    simp only [dictKeys, List.map_cons] at ih' ⊢
    simp [dictSet, if_neg hp, ih']

/-! ## Theorems: `task_map` characterisation -/

theorem buildTaskMap_mem_of_get {tasks : List Task} {k : Int} {t : Task}
    (hg : dictGet (buildTaskMap tasks) k = some t) : t ∈ tasks ∧ t.id = k := by
  suffices h : ∀ (ts : List Task) (m : List (Int × Task)),
      dictGet (ts.foldl (fun m u => dictSet m u.id u) m) k = some t →
      (t ∈ ts ∧ t.id = k) ∨ dictGet m k = some t by
    rcases h tasks [] hg with h' | h'
    · exact h'
    · simp [dictGet] at h'
  intro ts
  induction ts with
  | nil => exact fun m hm => Or.inr hm
  | cons u rest ih =>
    intro m hm
    rcases ih (dictSet m u.id u) hm with h' | h'
    · exact Or.inl ⟨List.mem_cons_of_mem _ h'.1, h'.2⟩
    · by_cases hk : u.id = k
      · rw [hk, dictGet_dictSet_self] at h'
        injection h' with h''
        subst h''
        exact Or.inl ⟨List.mem_cons_self _ _, hk⟩
      · rw [dictGet_dictSet_ne _ _ hk] at h'
        exact Or.inr h'

theorem foldl_dictSetTask_get_not_mem {ts : List Task} {k : Int}
    (h : ∀ u ∈ ts, u.id ≠ k) (m : List (Int × Task)) :
    dictGet (ts.foldl (fun m u => dictSet m u.id u) m) k = dictGet m k := by
  induction ts generalizing m with
  | nil => rfl
  | cons u rest ih =>
    rw [List.foldl_cons, ih fun v hv => h v (List.mem_cons_of_mem _ hv),
      dictGet_dictSet_ne _ _ (h u (List.mem_cons_self _ _))]

theorem buildTaskMap_get_self {tasks : List Task}
    (hn : (taskIds tasks).Nodup) {t : Task} (ht : t ∈ tasks) :
    dictGet (buildTaskMap tasks) t.id = some t := by
  suffices h : ∀ (ts : List Task), (taskIds ts).Nodup → t ∈ ts →
      ∀ m, dictGet (ts.foldl (fun m u => dictSet m u.id u) m) t.id = some t by
    exact h tasks hn ht []
  intro ts
  induction ts with
  | nil => exact fun _ h => absurd h (List.not_mem_nil _)
  | cons u rest ih =>
    intro hn' hmem m
    simp only [taskIds, List.map_cons, List.nodup_cons] at hn'
    rcases List.mem_cons.1 hmem with rfl | hmem'
    · have hnot : ∀ v ∈ rest, v.id ≠ t.id := by
        intro v hv hveq
        exact hn'.1 (hveq ▸ List.mem_map_of_mem Task.id hv)
      rw [List.foldl_cons, foldl_dictSetTask_get_not_mem hnot _,
        dictGet_dictSet_self]
    · rw [List.foldl_cons]
      exact ih hn'.2 hmem' (dictSet m u.id u)

theorem mem_dictKeys_buildTaskMap (tasks : List Task) (k : Int) :
    k ∈ dictKeys (buildTaskMap tasks) ↔ k ∈ taskIds tasks := by
  suffices h : ∀ (ts : List Task) (m : List (Int × Task)),
      k ∈ dictKeys (ts.foldl (fun m u => dictSet m u.id u) m) ↔
        k ∈ dictKeys m ∨ k ∈ taskIds ts by
    rw [buildTaskMap, h tasks []]
    simp [dictKeys]
  intro ts
  induction ts with
  | nil => intro m; simp [taskIds]
  | cons u rest ih =>
    intro m
    rw [List.foldl_cons, ih, mem_dictKeys_dictSet]
    simp only [taskIds, List.map_cons, List.mem_cons]
    tauto

theorem buildTaskMap_isSome_iff (tasks : List Task) (k : Int) :
    (dictGet (buildTaskMap tasks) k).isSome = true ↔ k ∈ taskIds tasks := by
  rw [dictGet_isSome_iff, mem_dictKeys_buildTaskMap]

end Borsaci


namespace Borsaci

/-! ## Theorems: characterisation of the graph-construction loop -/

theorem bdsFold_fst (M : List (Int × Task)) (tid : Int) :
    ∀ (deps : List Int) (m : List (Int × Int)) (g : Int → List Int) (c : Int),
      dictGet m tid = some c →
      (deps.foldl
        (fun (st : List (Int × Int) × (Int → List Int)) dep =>
          if (dictGet M dep).isSome then
            (st.1, fun k => if k = dep then st.2 k ++ [tid] else st.2 k)
          else (dictSet st.1 tid (dictGetD st.1 tid 0 - 1), st.2))
        (m, g)).1 =
      dictSet m tid (c - (deps.countP fun d => !(dictGet M d).isSome)) := by
  intro deps
  induction deps with
  | nil =>
    intro m g c hc
    simp only [List.foldl_nil, List.countP_nil, Nat.cast_zero, sub_zero]
    exact (dictSet_eq_self_of_get hc).symm
  | cons d ds ih =>
    intro m g c hc
    rw [List.foldl_cons]
    by_cases hv : (dictGet M d).isSome = true
    · rw [if_pos hv]
      rw [ih _ _ _ hc]
      congr 1
      rw [List.countP_cons]
      simp [hv]
    · rw [if_neg hv]
      rw [Bool.not_eq_true] at hv
      have hgd : dictGetD m tid 0 = c := by simp [dictGetD, hc]
      rw [hgd]
      rw [ih _ _ _ (dictGet_dictSet_self m tid (c - 1))]
      rw [dictSet_dictSet_self]
      congr 1
      rw [List.countP_cons]
      simp only [hv, Bool.not_false, if_true]
      push_cast
      ring

theorem bdsFold_snd (M : List (Int × Task)) (tid : Int) :
    ∀ (deps : List Int) (m : List (Int × Int)) (g : Int → List Int),
      (deps.foldl
        (fun (st : List (Int × Int) × (Int → List Int)) dep =>
          if (dictGet M dep).isSome then
            (st.1, fun k => if k = dep then st.2 k ++ [tid] else st.2 k)
          else (dictSet st.1 tid (dictGetD st.1 tid 0 - 1), st.2))
        (m, g)).2 =
      fun k => g k ++ List.replicate
        (deps.countP fun d => (dictGet M d).isSome && decide (d = k)) tid := by
  intro deps
  induction deps with
  | nil =>
    intro m g
    funext k
    simp
  | cons d ds ih =>
    intro m g
    rw [List.foldl_cons]
    by_cases hv : (dictGet M d).isSome = true
    · rw [if_pos hv]
      rw [ih]
      funext k
      by_cases hk : k = d
      · simp only [if_pos hk]
        subst hk
        rw [List.countP_cons]
        simp only [hv, Bool.true_and, decide_eq_true_eq, eq_self_iff_true,
          if_true, List.append_assoc, List.singleton_append]
        rw [← List.replicate_succ]
      · simp only [if_neg hk]
        rw [List.countP_cons]
        have hdk : decide (d = k) = false :=
          decide_eq_false fun h : d = k => hk h.symm
        simp [hdk]
    · rw [if_neg hv]
      rw [Bool.not_eq_true] at hv
      rw [ih]
      funext k
      rw [List.countP_cons]
      simp [hv]

end Borsaci

namespace Borsaci

theorem buildDepsStep_fst (tasks : List Task)
    (st : List (Int × Int) × (Int → List Int)) (t : Task) :
    (buildDepsStep (buildTaskMap tasks) st t).1 =
      dictSet st.1 t.id
        ((t.depends_on.countP fun d => decide (d ∈ taskIds tasks) : Nat) :
          Int) := by
  unfold buildDepsStep
  rw [bdsFold_fst (buildTaskMap tasks) t.id t.depends_on _ st.2 _
    (dictGet_dictSet_self st.1 t.id (t.depends_on.length : Int))]
  rw [dictSet_dictSet_self]
  congr 1
  have h3 : (t.depends_on.countP
      fun d => !(dictGet (buildTaskMap tasks) d).isSome) =
      t.depends_on.countP
        fun a => decide ¬((dictGet (buildTaskMap tasks) a).isSome = true) := by
    congr 1
    funext d
    cases (dictGet (buildTaskMap tasks) d).isSome <;> simp
  have h2 := List.length_eq_countP_add_countP
    (fun d => (dictGet (buildTaskMap tasks) d).isSome) t.depends_on
  have h1 : (t.depends_on.countP fun d => decide (d ∈ taskIds tasks)) =
      t.depends_on.countP
        fun d => (dictGet (buildTaskMap tasks) d).isSome := by
    congr 1
    funext d
    by_cases h : d ∈ taskIds tasks
    · rw [(buildTaskMap_isSome_iff tasks d).2 h, decide_eq_true h]
    · have hf : (dictGet (buildTaskMap tasks) d).isSome = false := by
        rw [← Bool.not_eq_true]
        exact fun hx => h ((buildTaskMap_isSome_iff tasks d).1 hx)
      rw [hf, decide_eq_false h]
  rw [h1]
  omega

theorem buildDepsStep_snd (tasks : List Task)
    (st : List (Int × Int) × (Int → List Int)) (t : Task) :
    (buildDepsStep (buildTaskMap tasks) st t).2 = fun k => st.2 k ++
      List.replicate
        (t.depends_on.countP fun d =>
          (dictGet (buildTaskMap tasks) d).isSome && decide (d = k))
        t.id := by
  unfold buildDepsStep
  rw [bdsFold_snd]

theorem buildDeps_fold_fst_not_mem (tasks : List Task) {k : Int} :
    ∀ (ts : List Task), (∀ u ∈ ts, u.id ≠ k) →
      ∀ (st : List (Int × Int) × (Int → List Int)),
      dictGet ((ts.foldl (buildDepsStep (buildTaskMap tasks)) st).1) k =
        dictGet st.1 k := by
  intro ts
  induction ts with
  | nil => intro _ st; rfl
  | cons u rest ih =>
    intro h st
    rw [List.foldl_cons, ih fun v hv => h v (List.mem_cons_of_mem _ hv),
      buildDepsStep_fst]
    exact dictGet_dictSet_ne _ _ (h u (List.mem_cons_self _ _))

theorem buildDeps_get_self (tasks : List Task) (hn : (taskIds tasks).Nodup)
    {t : Task} (ht : t ∈ tasks) :
    dictGet (buildDeps tasks).1 t.id =
      some ((t.depends_on.countP fun d => decide (d ∈ taskIds tasks) : Nat) :
        Int) := by
  unfold buildDeps
  suffices h : ∀ (ts : List Task), (taskIds ts).Nodup → t ∈ ts →
      ∀ (st : List (Int × Int) × (Int → List Int)),
      dictGet ((ts.foldl (buildDepsStep (buildTaskMap tasks)) st).1) t.id =
        some ((t.depends_on.countP
          fun d => decide (d ∈ taskIds tasks) : Nat) : Int) by
    exact h tasks hn ht _
  intro ts
  induction ts with
  | nil => intro _ h; exact absurd h (List.not_mem_nil _)
  | cons u rest ih =>
    intro hn' hmem st
    simp only [taskIds, List.map_cons, List.nodup_cons] at hn'
    rcases List.mem_cons.1 hmem with rfl | hmem'
    · have hnot : ∀ v ∈ rest, v.id ≠ t.id := by
        intro v hv hveq
        exact hn'.1 (hveq ▸ List.mem_map_of_mem Task.id hv)
      rw [List.foldl_cons, buildDeps_fold_fst_not_mem tasks rest hnot,
        buildDepsStep_fst, dictGet_dictSet_self]
    · rw [List.foldl_cons]
      exact ih hn'.2 hmem' _

theorem dictKeys_inDegreeInit (tasks : List Task)
    (hn : (taskIds tasks).Nodup) :
    dictKeys (inDegreeInit tasks) = taskIds tasks := by
  suffices h : ∀ (ts : List Task) (m : List (Int × Int)),
      (∀ u ∈ ts, u.id ∉ dictKeys m) → (taskIds ts).Nodup →
      dictKeys (ts.foldl (fun m u => dictSet m u.id 0) m) =
        dictKeys m ++ taskIds ts by
    have := h tasks [] (by simp [dictKeys]) hn
    simpa [inDegreeInit, dictKeys] using this
  intro ts
  induction ts with
  | nil => intro m _ _; simp [taskIds]
  | cons u rest ih =>
    intro m hm hn'
    simp only [taskIds, List.map_cons, List.nodup_cons] at hn'
    rw [List.foldl_cons]
    have hkeys : dictKeys (dictSet m u.id 0) = dictKeys m ++ [u.id] :=
      dictKeys_dictSet_of_not_mem 0 (hm u (List.mem_cons_self _ _))
    have hrest : ∀ v ∈ rest, v.id ∉ dictKeys (dictSet m u.id 0) := by
      intro v hv
      rw [hkeys]
      intro hmem
      rcases List.mem_append.1 hmem with h' | h'
      · exact hm v (List.mem_cons_of_mem _ hv) h'
      · rcases List.mem_singleton.1 h' with h''
        exact hn'.1 (h'' ▸ List.mem_map_of_mem Task.id hv)
    rw [ih _ hrest hn'.2, hkeys]
    simp [taskIds]

theorem dictKeys_buildDeps (tasks : List Task)
    (hn : (taskIds tasks).Nodup) :
    dictKeys (buildDeps tasks).1 = taskIds tasks := by
  unfold buildDeps
  suffices h : ∀ (ts : List Task), (∀ u ∈ ts, u.id ∈ taskIds tasks) →
      ∀ (st : List (Int × Int) × (Int → List Int)),
      dictKeys st.1 = taskIds tasks →
      dictKeys ((ts.foldl (buildDepsStep (buildTaskMap tasks)) st).1) =
        taskIds tasks by
    exact h tasks (fun u hu => List.mem_map_of_mem Task.id hu) _
      (dictKeys_inDegreeInit tasks hn)
  intro ts
  induction ts with
  | nil => intro _ st hst; exact hst
  | cons u rest ih =>
    intro hsub st hst
    rw [List.foldl_cons]
    refine ih (fun v hv => hsub v (List.mem_cons_of_mem _ hv)) _ ?_
    rw [buildDepsStep_fst, dictKeys_dictSet_of_mem _ ?_, hst]
    rw [hst]
    exact hsub u (List.mem_cons_self _ _)

theorem buildDeps_graph_sub (tasks : List Task) (d x : Int)
    (hx : x ∈ (buildDeps tasks).2 d) : x ∈ taskIds tasks := by
  revert hx
  unfold buildDeps
  suffices h : ∀ (ts : List Task), (∀ u ∈ ts, u.id ∈ taskIds tasks) →
      ∀ (st : List (Int × Int) × (Int → List Int)),
      (∀ d x, x ∈ st.2 d → x ∈ taskIds tasks) →
      x ∈ ((ts.foldl (buildDepsStep (buildTaskMap tasks)) st).2) d →
      x ∈ taskIds tasks by
    refine h tasks (fun u hu => List.mem_map_of_mem Task.id hu) _ ?_
    intro d x hx
    simp at hx
  intro ts
  induction ts with
  | nil => exact fun _ st hst => hst d x
  | cons u rest ih =>
    intro hsub st hst
    rw [List.foldl_cons]
    refine ih (fun v hv => hsub v (List.mem_cons_of_mem _ hv)) _ ?_
    intro d' x' hx'
    simp only [buildDepsStep_snd] at hx'
    rcases List.mem_append.1 hx' with hx' | hx'
    · exact hst d' x' hx'
    · rw [List.mem_replicate] at hx'
      exact hx'.2 ▸ hsub u (List.mem_cons_self _ _)

theorem sum_single_contrib (x : Int) (f : Task → Nat) :
    ∀ (ts : List Task), (taskIds ts).Nodup → ∀ tx ∈ ts, tx.id = x →
      (ts.map fun u => if u.id = x then f u else 0).sum = f tx := by
  intro ts
  induction ts with
  | nil => intro _ tx h; exact absurd h (List.not_mem_nil _)
  | cons u rest ih =>
    intro hn tx hmem hx
    simp only [taskIds, List.map_cons, List.nodup_cons] at hn
    rcases List.mem_cons.1 hmem with rfl | hmem'
    · simp only [List.map_cons, List.sum_cons, if_pos hx]
      have hz : (rest.map fun u => if u.id = x then f u else 0).sum = 0 := by
        apply List.sum_eq_zero
        intro y hy
        rcases List.mem_map.1 hy with ⟨v, hv, he⟩
        have hvx : v.id ≠ x := by
          intro hveq
          apply hn.1
          have he2 : tx.id = v.id := hx.trans hveq.symm
          rw [he2]
          exact List.mem_map_of_mem Task.id hv
        rw [← he, if_neg hvx]
      omega
    · have hu : u.id ≠ x := by
        intro hue
        apply hn.1
        rw [hue, ← hx]
        exact List.mem_map_of_mem Task.id hmem'
      simp only [List.map_cons, List.sum_cons, if_neg hu,
        ih hn.2 tx hmem' hx, zero_add]

theorem buildDeps_graph_count (tasks : List Task)
    (hn : (taskIds tasks).Nodup) {x : Int} {tx : Task}
    (hx : dictGet (buildTaskMap tasks) x = some tx) (d : Int) :
    ((buildDeps tasks).2 d).count x =
      tx.depends_on.countP fun dd =>
        (dictGet (buildTaskMap tasks) dd).isSome && decide (dd = d) := by
  obtain ⟨htx, hid⟩ := buildTaskMap_mem_of_get hx
  unfold buildDeps
  suffices h : ∀ (ts : List Task)
      (st : List (Int × Int) × (Int → List Int)),
      ((ts.foldl (buildDepsStep (buildTaskMap tasks)) st).2 d).count x =
        (st.2 d).count x +
        (ts.map fun u => if u.id = x then
          u.depends_on.countP (fun dd =>
            (dictGet (buildTaskMap tasks) dd).isSome && decide (dd = d))
          else 0).sum by
    rw [h tasks _, sum_single_contrib x _ tasks hn tx htx hid]
    simp
  intro ts
  induction ts with
  | nil => intro st; simp
  | cons u rest ih =>
    intro st
    rw [List.foldl_cons, ih]
    simp only [buildDepsStep_snd]
    rw [List.count_append, List.count_replicate]
    simp only [List.map_cons, List.sum_cons, beq_iff_eq]
    by_cases hux : u.id = x
    · rw [if_pos hux]
      ring
    · rw [if_neg hux]
      ring

end Borsaci

namespace Borsaci

/-! ## Theorems: the decrement fold of one Kahn level -/

/-- The nested per-pop fold of one level equals one fold over the
concatenated dependent lists. -/
theorem kahn_inner_eq_flatMap (graph : Int → List Int)
    (queue : List Int) (st : List (Int × Int) × List Int) :
    queue.foldl (fun st tid => (graph tid).foldl decStep st) st =
      (queue.flatMap graph).foldl decStep st := by
  induction queue generalizing st with
  | nil => rfl
  | cons a q ih =>
    rw [List.foldl_cons, List.flatMap_cons, List.foldl_append, ih]

/-- Behaviour of the decrement fold: if `f` gives the stored in-degree of
every id occurring in `R`, the fold subtracts each id's multiplicity in `R`
from its entry, appends to the queue exactly the ids whose value crosses
`0` during the fold (each at most once), and leaves the key set unchanged. -/
theorem decFold_spec :
    ∀ (R : List Int) (f : Int → Int) (inDeg : List (Int × Int))
      (acc : List Int),
      (∀ v ∈ R, dictGet inDeg v = some (f v)) →
      (∀ v ∈ acc, f v ≤ 0) →
      acc.Nodup →
      (∀ v, dictGet ((R.foldl decStep (inDeg, acc)).1) v =
          if v ∈ R then some (f v - (R.count v : Int))
          else dictGet inDeg v) ∧
      (∀ v, v ∈ (R.foldl decStep (inDeg, acc)).2 ↔
          v ∈ acc ∨ (v ∈ R ∧ 1 ≤ f v ∧ f v ≤ (R.count v : Int))) ∧
      ((R.foldl decStep (inDeg, acc)).2).Nodup ∧
      dictKeys ((R.foldl decStep (inDeg, acc)).1) = dictKeys inDeg := by
  intro R
  induction R with
  | nil =>
    intro f inDeg acc _ _ hacc
    exact ⟨fun v => by simp, fun v => by simp, hacc, rfl⟩
  | cons dep R' ih =>
    intro f inDeg acc H Hacc haccnd
    have hdep := H dep (List.mem_cons_self _ _)
    have hgd : dictGetD inDeg dep 0 = f dep := by simp [dictGetD, hdep]
    have hkdep : dep ∈ dictKeys inDeg := by
      rw [← dictGet_isSome_iff, hdep]
      rfl
    have hstep : decStep (inDeg, acc) dep =
        (dictSet inDeg dep (f dep - 1),
         if f dep - 1 = 0 then acc ++ [dep] else acc) := by
      simp [decStep, hgd]
    rw [List.foldl_cons, hstep]
    have H' : ∀ v ∈ R',
        dictGet (dictSet inDeg dep (f dep - 1)) v =
          some ((fun v => if v = dep then f v - 1 else f v) v) := by
      intro v hv
      by_cases hveq : v = dep
      · subst hveq
        rw [dictGet_dictSet_self]
        simp
      · rw [dictGet_dictSet_ne _ _ (Ne.symm hveq)]
        simp only [if_neg hveq]
        exact H v (List.mem_cons_of_mem _ hv)
    have Hacc' : ∀ v ∈ (if f dep - 1 = 0 then acc ++ [dep] else acc),
        (fun v => if v = dep then f v - 1 else f v) v ≤ 0 := by
      intro v hv
      by_cases hfd : f dep - 1 = 0
      · rw [if_pos hfd] at hv
        rcases List.mem_append.1 hv with hv | hv
        · have hvd : v ≠ dep := by
            intro he
            have h0 := Hacc v hv
            rw [he] at h0
            omega
          simp only [if_neg hvd]
          exact Hacc v hv
        · have hvd : v = dep := List.mem_singleton.1 hv
          change (if v = dep then f v - 1 else f v) ≤ 0
          rw [if_pos hvd, hvd]
          omega
      · rw [if_neg hfd] at hv
        by_cases hvd : v = dep
        · change (if v = dep then f v - 1 else f v) ≤ 0
          rw [if_pos hvd, hvd]
          have h0 := Hacc v hv
          rw [hvd] at h0
          omega
        · simp only [if_neg hvd]
          exact Hacc v hv
    have haccnd' : (if f dep - 1 = 0 then acc ++ [dep] else acc).Nodup := by
      by_cases hfd : f dep - 1 = 0
      · rw [if_pos hfd]
        have hdnotin : dep ∉ acc := by
          intro hin
          have := Hacc dep hin
          omega
        simp [List.nodup_append, haccnd, hdnotin]
      · rw [if_neg hfd]
        exact haccnd
    obtain ⟨ih1, ih2, ih3, ih4⟩ :=
      ih (fun v => if v = dep then f v - 1 else f v)
        (dictSet inDeg dep (f dep - 1))
        (if f dep - 1 = 0 then acc ++ [dep] else acc) H' Hacc' haccnd'
    refine ⟨?_, ?_, ih3, ?_⟩
    · intro v
      rw [ih1 v]
      by_cases hvR : v ∈ R'
      · rw [if_pos hvR, if_pos (List.mem_cons_of_mem _ hvR)]
        by_cases hvd : v = dep
        · subst hvd
          simp only [if_pos rfl, List.count_cons_self]
          congr 1
          push_cast
          ring
        · simp only [if_neg hvd]
          have hcnt : (dep :: R').count v = R'.count v := by
            rw [List.count_cons]
            simp [Ne.symm hvd]
          rw [hcnt]
      · rw [if_neg hvR]
        by_cases hvd : v = dep
        · subst hvd
          rw [dictGet_dictSet_self, if_pos (List.mem_cons_self _ _)]
          have hc : R'.count v = 0 := List.count_eq_zero_of_not_mem hvR
          rw [List.count_cons_self, hc]
          norm_num
        · rw [dictGet_dictSet_ne _ _ (Ne.symm hvd)]
          rw [if_neg (by simp [hvd, hvR])]
    · intro v
      rw [ih2 v]
      by_cases hvd : v = dep
      · subst hvd
        by_cases hfd : f v - 1 = 0
        · rw [if_pos hfd]
          constructor
          · intro _
            right
            refine ⟨List.mem_cons_self _ _, by omega, ?_⟩
            rw [List.count_cons_self]
            omega
          · intro _
            left
            simp
        · rw [if_neg hfd]
          constructor
          · rintro (hv | ⟨hvR, h1, h2⟩)
            · exact Or.inl hv
            · simp only [if_pos rfl] at h1 h2
              right
              refine ⟨List.mem_cons_self _ _, by omega, ?_⟩
              rw [List.count_cons_self]
              push_cast at h2 ⊢
              omega
          · rintro (hv | ⟨-, h1, h2⟩)
            · exact Or.inl hv
            · right
              rw [List.count_cons_self] at h2
              have h3 : (2 : Int) ≤ f v := by omega
              have h4 : f v - 1 ≤ (R'.count v : Int) := by
                push_cast at h2 ⊢
                omega
              have h5 : (1 : Int) ≤ (R'.count v : Int) := by omega
              have h6 : v ∈ R' := by
                rw [← List.count_pos_iff]
                omega
              have h7 : (1 : Int) ≤ f v - 1 := by omega
              exact ⟨h6, by simpa using h7, by simpa using h4⟩
      · have hacc1 : v ∈ (if f dep - 1 = 0 then acc ++ [dep] else acc) ↔
            v ∈ acc := by
          by_cases hfd : f dep - 1 = 0
          · rw [if_pos hfd]
            simp [hvd]
          · rw [if_neg hfd]
        rw [hacc1]
        simp only [if_neg hvd]
        have hcnt : (dep :: R').count v = R'.count v := by
          rw [List.count_cons]
          simp [Ne.symm hvd]
        rw [hcnt]
        constructor
        · rintro (hv | ⟨hvR, h1, h2⟩)
          · exact Or.inl hv
          · exact Or.inr ⟨List.mem_cons_of_mem _ hvR, h1, h2⟩
        · rintro (hv | ⟨hvR, h1, h2⟩)
          · exact Or.inl hv
          · rcases List.mem_cons.1 hvR with h' | h'
            · exact absurd h' hvd
            · exact Or.inr ⟨h', h1, h2⟩
    · rw [ih4]
      exact dictKeys_dictSet_of_mem _ hkdep

end Borsaci

namespace Borsaci

/-! ## Theorems: support lemmas for the Kahn-loop invariant -/

theorem exists_task_of_mem_ids {tasks : List Task} {v : Int}
    (h : v ∈ taskIds tasks) : ∃ t ∈ tasks, t.id = v := by
  simpa [taskIds] using h

theorem remDeg_eq_zero_iff (tasks : List Task) (P : List Int) (t : Task) :
    remDeg tasks P t = 0 ↔
      ∀ d ∈ t.depends_on, d ∈ taskIds tasks → d ∈ P := by
  unfold remDeg
  rw [List.countP_eq_zero]
  constructor
  · intro h d hd hv
    by_contra hnp
    exact h d hd (by simp [hv, hnp])
  · intro h d hd hc
    simp only [Bool.and_eq_true, decide_eq_true_eq] at hc
    exact hc.2 (h d hd hc.1)

theorem remDeg_split (tasks : List Task) (P queue : List Int)
    (hqsub : ∀ v ∈ queue, v ∈ taskIds tasks)
    (hdisj : ∀ v ∈ queue, v ∉ P) (t : Task) :
    remDeg tasks P t =
      remDeg tasks (P ++ queue) t +
        t.depends_on.countP fun d => decide (d ∈ queue) := by
  unfold remDeg
  refine countP_or_disjoint _ _ _ _ fun d _ => ?_
  simp only [Bool.and_eq_true, decide_eq_true_eq, List.mem_append, not_or]
  constructor
  · constructor
    · rintro ⟨hv, hnp⟩
      by_cases hq : d ∈ queue
      · exact Or.inr hq
      · exact Or.inl ⟨hv, hnp, hq⟩
    · rintro (⟨hv, hnp, -⟩ | hq)
      · exact ⟨hv, hnp⟩
      · exact ⟨hqsub d hq, hdisj d hq⟩
  · rintro ⟨⟨-, -, hnq⟩, hq⟩
    exact hnq hq

theorem count_flatMap_graph (tasks : List Task)
    (hn : (taskIds tasks).Nodup) (queue : List Int) (hq : queue.Nodup)
    (hqsub : ∀ v ∈ queue, v ∈ taskIds tasks) {t : Task} (ht : t ∈ tasks) :
    (queue.flatMap (buildDeps tasks).2).count t.id =
      t.depends_on.countP fun d => decide (d ∈ queue) := by
  rw [count_flatMap]
  have hstep : ∀ tid ∈ queue,
      ((buildDeps tasks).2 tid).count t.id = t.depends_on.count tid := by
    intro tid htid
    rw [buildDeps_graph_count tasks hn (buildTaskMap_get_self hn ht) tid]
    have hfn : (fun dd =>
        (dictGet (buildTaskMap tasks) dd).isSome && decide (dd = tid)) =
        fun dd => decide (dd = tid) := by
      funext dd
      by_cases h : dd = tid
      · subst h
        simp [(buildTaskMap_isSome_iff tasks dd).2 (hqsub dd htid)]
      · simp [h]
    rw [hfn]
    unfold List.count
    congr 1
  rw [List.map_congr_left hstep]
  exact sum_count_eq_countP queue hq t.depends_on

theorem level_map_id (tasks : List Task) :
    ∀ (queue : List Int), (∀ v ∈ queue, v ∈ taskIds tasks) →
      ((queue.filterMap fun tid => dictGet (buildTaskMap tasks) tid).map
        Task.id) = queue := by
  intro queue
  induction queue with
  | nil => intro _; rfl
  | cons a q ih =>
    intro h
    have ha : a ∈ taskIds tasks := h a (List.mem_cons_self _ _)
    have hsome : (dictGet (buildTaskMap tasks) a).isSome = true :=
      (buildTaskMap_isSome_iff tasks a).2 ha
    obtain ⟨u, hu⟩ := Option.isSome_iff_exists.1 hsome
    have hid : u.id = a := (buildTaskMap_mem_of_get hu).2
    simp only [List.filterMap_cons, hu, List.map_cons, hid]
    rw [ih fun v hv => h v (List.mem_cons_of_mem _ hv)]

theorem mem_flatten_map_id (plan : List (List Task)) (d : Int) :
    d ∈ plan.flatten.map Task.id ↔
      ∃ (i : Nat) (group : List Task), plan[i]? = some group ∧
        ∃ u ∈ group, u.id = d := by
  rw [List.mem_map]
  constructor
  · rintro ⟨u, hu, rfl⟩
    rcases List.mem_flatten.1 hu with ⟨g, hg, hug⟩
    rcases List.mem_iff_getElem?.1 hg with ⟨i, hi⟩
    exact ⟨i, g, hi, u, hug, rfl⟩
  · rintro ⟨i, g, hi, u, hug, rfl⟩
    exact ⟨u, List.mem_flatten.2 ⟨g, List.mem_iff_getElem?.2 ⟨i, hi⟩, hug⟩,
      rfl⟩

end Borsaci

namespace Borsaci

/-- Master invariant preservation for `kahnLoop`: starting from an invariant
state with enough fuel, the loop terminates with an empty queue, the final
processed count equals the number of popped ids, and the invariant holds for
the final plan. -/
theorem kahnLoop_master (tasks : List Task) (hn : (taskIds tasks).Nodup) :
    ∀ (fuel : Nat) (inDeg : List (Int × Int)) (queue : List Int)
      (plan : List (List Task)) (processed : Nat),
      KahnInv tasks inDeg queue plan processed →
      tasks.length - processed < fuel →
      ∃ inDeg' plan',
        kahnLoop (buildDeps tasks).2 (buildTaskMap tasks) fuel inDeg queue
          plan processed =
          (plan', (plan'.flatten.map Task.id).length) ∧
        KahnInv tasks inDeg' [] plan'
          ((plan'.flatten.map Task.id).length) := by
  intro fuel
  induction fuel with
  | zero =>
    intro inDeg queue plan processed _ hfuel
    omega
  | succ fuel ih =>
    intro inDeg queue plan processed inv hfuel
    cases queue with
    | nil =>
      refine ⟨inDeg, plan, ?_, ?_⟩
      · show (plan, processed) = _
        rw [inv.proc]
      · exact ⟨inv.keys, inv.deg, inv.pnodup, inv.qnodup, inv.psub, inv.qsub,
          inv.pqdisj, inv.qchar, inv.pzero, inv.planTasks, inv.levels, rfl⟩
    | cons q0 qs =>
      have hkeys := inv.keys
      have hdeg := inv.deg
      have hpnodup := inv.pnodup
      have hqnodup := inv.qnodup
      have hpsub := inv.psub
      have hqsub := inv.qsub
      have hpqdisj := inv.pqdisj
      have hqchar := inv.qchar
      have hpzero := inv.pzero
      have hplanTasks := inv.planTasks
      have hlevels := inv.levels
      have hproc := inv.proc
      set Q : List Int := q0 :: qs with hQdef
      set P : List Int := plan.flatten.map Task.id with hPdef
      set D : List Int := Q.flatMap (buildDeps tasks).2 with hDdef
      set L : List Task :=
        Q.filterMap fun tid => dictGet (buildTaskMap tasks) tid with hLdef
      set f : Int → Int := fun v =>
        match dictGet (buildTaskMap tasks) v with
        | some t => ((remDeg tasks P t : Nat) : Int)
        | none => 0 with hfdef
      have hunfold : kahnLoop (buildDeps tasks).2 (buildTaskMap tasks)
          (fuel + 1) inDeg Q plan processed =
          kahnLoop (buildDeps tasks).2 (buildTaskMap tasks) fuel
            (D.foldl decStep (inDeg, [])).1
            (D.foldl decStep (inDeg, [])).2
            (plan ++ [L]) (processed + Q.length) := by
        rw [hQdef, hDdef, hLdef, hQdef]
        rw [← kahn_inner_eq_flatMap]
        simp only [kahnLoop]
      have hDsub : ∀ v ∈ D, v ∈ taskIds tasks := by
        intro v hv
        rw [hDdef] at hv
        rcases List.mem_flatMap.1 hv with ⟨tid, _, hvg⟩
        exact buildDeps_graph_sub tasks tid v hvg
      have hf : ∀ t ∈ tasks, f t.id = ((remDeg tasks P t : Nat) : Int) := by
        intro t ht
        rw [hfdef]
        simp only [buildTaskMap_get_self hn ht]
      have HH : ∀ v ∈ D, dictGet inDeg v = some (f v) := by
        intro v hv
        obtain ⟨t, ht, rfl⟩ := exists_task_of_mem_ids (hDsub v hv)
        rw [hf t ht]
        exact hdeg t ht
      obtain ⟨dec1, dec2, dec3, dec4⟩ :=
        decFold_spec D f inDeg [] HH (by simp) List.nodup_nil
      have hcount : ∀ t ∈ tasks, D.count t.id =
          t.depends_on.countP fun d => decide (d ∈ Q) := by
        intro t ht
        rw [hDdef]
        exact count_flatMap_graph tasks hn Q hqnodup hqsub ht
      have hsplit : ∀ t : Task, remDeg tasks P t =
          remDeg tasks (P ++ Q) t +
            t.depends_on.countP fun d => decide (d ∈ Q) :=
        remDeg_split tasks P Q hqsub hpqdisj
      have hmemD : ∀ t ∈ tasks, (t.id ∈ D ↔
          1 ≤ t.depends_on.countP fun d => decide (d ∈ Q)) := by
        intro t ht
        rw [← List.count_pos_iff, hcount t ht]
        omega
      have hcQzero : ∀ t ∈ tasks, t.id ∉ D →
          (t.depends_on.countP fun d => decide (d ∈ Q)) = 0 := by
        intro t ht hnd
        by_contra hne
        exact hnd ((hmemD t ht).2 (by omega))
      have hLid : L.map Task.id = Q := by
        rw [hLdef]
        exact level_map_id tasks Q hqsub
      have hflatL : ([L] : List (List Task)).flatten = L := by simp
      have hP' : (plan ++ [L]).flatten.map Task.id = P ++ Q := by
        rw [List.flatten_append, hflatL, List.map_append, hLid, hPdef]
      have hdeg' : ∀ t ∈ tasks,
          dictGet (D.foldl decStep (inDeg, [])).1 t.id =
            some ((remDeg tasks (P ++ Q) t : Nat) : Int) := by
        intro t ht
        rw [dec1 t.id]
        by_cases hd : t.id ∈ D
        · rw [if_pos hd, hf t ht, hcount t ht]
          have hs := hsplit t
          congr 1
          omega
        · rw [if_neg hd, hdeg t ht]
          have h0 := hcQzero t ht hd
          have hs := hsplit t
          congr 1
          omega
      have hqsub' : ∀ v ∈ (D.foldl decStep (inDeg, [])).2,
          v ∈ taskIds tasks := by
        intro v hv
        rcases (dec2 v).1 hv with h0 | ⟨hvD, -, -⟩
        · simp at h0
        · exact hDsub v hvD
      have hpq' : ∀ v ∈ (D.foldl decStep (inDeg, [])).2, v ∉ P ++ Q := by
        intro v hv hmem
        rcases (dec2 v).1 hv with h0 | ⟨hvD, h1, -⟩
        · simp at h0
        · obtain ⟨t, ht, rfl⟩ := exists_task_of_mem_ids (hDsub v hvD)
          rw [hf t ht] at h1
          have hrd : 1 ≤ remDeg tasks P t := by exact_mod_cast h1
          rcases List.mem_append.1 hmem with hp | hq
          · have := hpzero t ht hp
            omega
          · have := ((hqchar t ht).1 hq).2
            omega
      have hqchar' : ∀ t ∈ tasks,
          (t.id ∈ (D.foldl decStep (inDeg, [])).2 ↔
            t.id ∉ P ++ Q ∧ remDeg tasks (P ++ Q) t = 0) := by
        intro t ht
        constructor
        · intro hv
          refine ⟨hpq' t.id hv, ?_⟩
          rcases (dec2 t.id).1 hv with h0 | ⟨hvD, h1, h2⟩
          · simp at h0
          · rw [hf t ht] at h1 h2
            rw [hcount t ht] at h2
            have hs := hsplit t
            have h1' : 1 ≤ remDeg tasks P t := by exact_mod_cast h1
            have h2' : remDeg tasks P t ≤
                t.depends_on.countP fun d => decide (d ∈ Q) := by
              exact_mod_cast h2
            omega
        · rintro ⟨hnmem, hzero⟩
          have hnP : t.id ∉ P := fun hp =>
            hnmem (List.mem_append.2 (Or.inl hp))
          have hnQ : t.id ∉ Q := fun hq2 =>
            hnmem (List.mem_append.2 (Or.inr hq2))
          have hs := hsplit t
          have hpos : 1 ≤ remDeg tasks P t := by
            by_contra hle
            have h0 : remDeg tasks P t = 0 := by omega
            exact hnQ ((hqchar t ht).2 ⟨hnP, h0⟩)
          have hcq : 1 ≤ t.depends_on.countP fun d => decide (d ∈ Q) := by
            omega
          have hd : t.id ∈ D := (hmemD t ht).2 hcq
          refine (dec2 t.id).2 (Or.inr ⟨hd, ?_, ?_⟩)
          · rw [hf t ht]
            exact_mod_cast hpos
          · rw [hf t ht, hcount t ht]
            have hle : remDeg tasks P t ≤
                t.depends_on.countP fun d => decide (d ∈ Q) := by omega
            exact_mod_cast hle
      have hpzero' : ∀ t ∈ tasks, t.id ∈ P ++ Q →
          remDeg tasks (P ++ Q) t = 0 := by
        intro t ht hmem
        have hs := hsplit t
        rcases List.mem_append.1 hmem with hp | hq
        · have := hpzero t ht hp
          omega
        · have := ((hqchar t ht).1 hq).2
          omega
      have hplanTasks' : ∀ u ∈ (plan ++ [L]).flatten,
          dictGet (buildTaskMap tasks) u.id = some u := by
        intro u hu
        rw [List.flatten_append, hflatL] at hu
        rcases List.mem_append.1 hu with hu | hu
        · exact hplanTasks u hu
        · rw [hLdef] at hu
          rcases List.mem_filterMap.1 hu with ⟨tid, _, hgu⟩
          have hgid := (buildTaskMap_mem_of_get hgu).2
          rw [hgid]
          exact hgu
      have hlevels' : LevelsOk tasks (plan ++ [L]) := by
        intro j group hj t htg d hd hdv
        have hjlen : j < plan.length + 1 := by
          obtain ⟨h1, -⟩ := List.getElem?_eq_some.1 hj
          simpa using h1
        by_cases hjlt : j < plan.length
        · rw [List.getElem?_append_left hjlt] at hj
          obtain ⟨i, group', hij, hig, hex⟩ :=
            hlevels j group hj t htg d hd hdv
          exact ⟨i, group', hij,
            by rw [List.getElem?_append_left (lt_trans hij hjlt)]; exact hig,
            hex⟩
        · have hjeq : j = plan.length := by omega
          subst hjeq
          rw [List.getElem?_concat_length] at hj
          injection hj with hj
          subst hj
          have hgt : dictGet (buildTaskMap tasks) t.id = some t := by
            apply hplanTasks'
            rw [List.flatten_append, hflatL]
            exact List.mem_append.2 (Or.inr htg)
          have htask : t ∈ tasks := (buildTaskMap_mem_of_get hgt).1
          have htid : t.id ∈ Q := by
            rw [← hLid]
            exact List.mem_map_of_mem Task.id htg
          have hzero : remDeg tasks P t = 0 := ((hqchar t htask).1 htid).2
          have hdP : d ∈ P := (remDeg_eq_zero_iff tasks P t).1 hzero d hd hdv
          rw [hPdef] at hdP
          obtain ⟨i, group', hig, hex⟩ := (mem_flatten_map_id plan d).1 hdP
          obtain ⟨hilen, -⟩ := List.getElem?_eq_some.1 hig
          exact ⟨i, group', hilen,
            by rw [List.getElem?_append_left hilen]; exact hig, hex⟩
      have inv' : KahnInv tasks (D.foldl decStep (inDeg, [])).1
          (D.foldl decStep (inDeg, [])).2 (plan ++ [L])
          (processed + Q.length) := by
        refine ⟨?_, ?_, ?_, dec3, ?_, ?_, ?_, ?_, ?_, hplanTasks',
          hlevels', ?_⟩
        · rw [dec4]
          exact hkeys
        · intro t ht
          rw [hP']
          exact hdeg' t ht
        · rw [hP']
          rw [List.nodup_append]
          exact ⟨hpnodup, hqnodup, fun a haP haQ => hpqdisj a haQ haP⟩
        · rw [hP']
          intro v hv
          rcases List.mem_append.1 hv with h | h
          · exact hpsub v h
          · exact hqsub v h
        · exact hqsub'
        · rw [hP']
          exact hpq'
        · intro t ht
          rw [hP']
          exact hqchar' t ht
        · intro t ht
          rw [hP']
          exact hpzero' t ht
        · rw [hP', List.length_append, hproc]
      have hPlt : P.length < tasks.length := by
        have hsp : P.Subperm (taskIds tasks) :=
          List.subperm_of_subset hpnodup hpsub
        have hle : P.length ≤ (taskIds tasks).length := hsp.length_le
        have hne : P.length ≠ (taskIds tasks).length := by
          intro heq
          have hperm : P.Perm (taskIds tasks) :=
            hsp.perm_of_length_le (by omega)
          have hq0P : q0 ∈ P :=
            hperm.mem_iff.2 (hqsub q0 (by rw [hQdef]; simp))
          exact hpqdisj q0 (by rw [hQdef]; simp) hq0P
        have hlen : (taskIds tasks).length = tasks.length := by
          simp [taskIds]
        omega
      have hfuel' : tasks.length - (processed + Q.length) < fuel := by
        have hq1 : 1 ≤ Q.length := by rw [hQdef]; simp
        omega
      obtain ⟨inDeg', plan', hres, hinv2⟩ :=
        ih (D.foldl decStep (inDeg, [])).1 (D.foldl decStep (inDeg, [])).2
          (plan ++ [L]) (processed + Q.length) inv' hfuel'
      exact ⟨inDeg', plan', hunfold.trans hres, hinv2⟩

end Borsaci

namespace Borsaci

/-! ## Theorems: initial state of the Kahn loop -/

theorem seed_mem_iff {d : List (Int × Int)} (hd : (dictKeys d).Nodup)
    (v : Int) :
    (v ∈ (d.filter fun p => p.2 = 0).map Prod.fst) ↔
      dictGet d v = some 0 := by
  rw [dictGet_mem_iff hd]
  constructor
  · intro h
    rcases List.mem_map.1 h with ⟨p, hp, he⟩
    rcases List.mem_filter.1 hp with ⟨hpd, hp0⟩
    have hp0' : p.2 = 0 := by simpa using hp0
    have hpv : p = (v, 0) := by
      obtain ⟨x, y⟩ := p
      simp only [Prod.mk.injEq]
      simp at he hp0'
      exact ⟨he, hp0'⟩
    rw [← hpv]
    exact hpd
  · intro h
    exact List.mem_map.2 ⟨(v, 0), List.mem_filter.2 ⟨h, by simp⟩, rfl⟩

theorem seed_nodup {d : List (Int × Int)} (hd : (dictKeys d).Nodup) :
    ((d.filter fun p => p.2 = 0).map Prod.fst).Nodup := by
  have hsub : ((d.filter fun p => p.2 = 0).map Prod.fst).Sublist
      (d.map Prod.fst) := (List.filter_sublist d).map Prod.fst
  exact List.Nodup.sublist hsub hd

theorem remDeg_nil (tasks : List Task) (t : Task) :
    remDeg tasks [] t =
      t.depends_on.countP fun d => decide (d ∈ taskIds tasks) := by
  unfold remDeg
  congr 1
  funext d
  simp

/-- The seed state of `_build_execution_plan` satisfies the loop invariant. -/
theorem kahnInv_init (tasks : List Task) (hn : (taskIds tasks).Nodup) :
    KahnInv tasks (buildDeps tasks).1
      (((buildDeps tasks).1.filter fun p => p.2 = 0).map Prod.fst) [] 0 := by
  have hkeys := dictKeys_buildDeps tasks hn
  have hkeysnd : (dictKeys (buildDeps tasks).1).Nodup := by
    rw [hkeys]
    exact hn
  refine ⟨hkeys, ?_, by simp, seed_nodup hkeysnd, by simp, ?_, by simp,
    ?_, by simp, by simp, ?_, by simp⟩
  · intro t ht
    simp only [List.flatten_nil, List.map_nil]
    rw [remDeg_nil]
    exact buildDeps_get_self tasks hn ht
  · intro v hv
    rw [seed_mem_iff hkeysnd] at hv
    have : (dictGet (buildDeps tasks).1 v).isSome = true := by
      rw [hv]
      rfl
    rw [dictGet_isSome_iff, hkeys] at this
    exact this
  · intro t ht
    simp only [List.flatten_nil, List.map_nil, List.not_mem_nil,
      not_false_iff, true_and]
    rw [seed_mem_iff hkeysnd, buildDeps_get_self tasks hn ht, remDeg_nil]
    simp
  · intro j group hj
    simp at hj

theorem length_lt_of_missing {P ids : List Int} (hp : P.Nodup)
    (hsub : ∀ v ∈ P, v ∈ ids) {a : Int} (ha : a ∈ ids) (hna : a ∉ P) :
    P.length < ids.length := by
  have hsp : P.Subperm ids := List.subperm_of_subset hp hsub
  have hle := hsp.length_le
  rcases lt_or_eq_of_le hle with h | h
  · exact h
  · exfalso
    have hperm : P.Perm ids := hsp.perm_of_length_le (by omega)
    exact hna (hperm.mem_iff.2 ha)

/-- Reduction of `build_execution_plan`'s body given the loop's result. -/
theorem build_execution_plan_eq (tasks : List Task)
    (hne : ¬ tasks.isEmpty = true) (plan' : List (List Task))
    (hres : kahnLoop (buildDeps tasks).2 (buildTaskMap tasks)
        (tasks.length + 1) (buildDeps tasks).1
        (((buildDeps tasks).1.filter fun p => p.2 = 0).map Prod.fst) [] 0 =
      (plan', (plan'.flatten.map Task.id).length)) :
    build_execution_plan tasks =
      if (plan'.flatten.map Task.id).length < tasks.length then
        .error (.circular ((tasks.filter fun t =>
          ¬ t.id ∈ (plan'.flatten.map Task.id)).map Task.id))
      else .ok plan' := by
  have hne' : tasks.isEmpty = false := by
    rw [← Bool.not_eq_true]
    exact hne
  simp only [build_execution_plan, hne', Bool.false_eq_true, if_false, hres]

end Borsaci

namespace Borsaci

/-! ## Theorems: top-level correctness of `_build_execution_plan` -/

/-- On a task list with unique ids whose valid-dependency graph has a
topological rank, `_build_execution_plan` succeeds, its levels concatenate
to a permutation of the input tasks, and every valid prerequisite sits in a
strictly earlier level. -/
theorem build_plan_dag (tasks : List Task) (hn : (taskIds tasks).Nodup)
    (rank : Int → Nat) (hr : RankedAcyclic tasks rank) :
    ∃ plan, build_execution_plan tasks = .ok plan ∧
      plan.flatten.Perm tasks ∧ LevelsOk tasks plan := by
  by_cases hemp : tasks.isEmpty = true
  · have hnil : tasks = [] := List.isEmpty_iff.1 hemp
    subst hnil
    refine ⟨[], by rw [build_execution_plan]; rfl, by simp, ?_⟩
    intro j group hj
    simp at hj
  · obtain ⟨inDeg', plan', hres, hinv⟩ :=
      kahnLoop_master tasks hn (tasks.length + 1) (buildDeps tasks).1
        (((buildDeps tasks).1.filter fun p => p.2 = 0).map Prod.fst) [] 0
        (kahnInv_init tasks hn) (by omega)
    have hall : ∀ t ∈ tasks, t.id ∈ plan'.flatten.map Task.id := by
      by_contra hex
      push_neg at hex
      obtain ⟨t0, ht0, hnp⟩ := hex
      have hS : t0 ∈ tasks.filter
          fun t => decide (¬ t.id ∈ plan'.flatten.map Task.id) := by
        rw [List.mem_filter]
        exact ⟨ht0, by simpa using hnp⟩
      obtain ⟨tmin, htmin, hmin⟩ :=
        Finset.exists_min_image
          (tasks.filter fun t =>
            decide (¬ t.id ∈ plan'.flatten.map Task.id)).toFinset
          (fun t => rank t.id) ⟨t0, List.mem_toFinset.2 hS⟩
      rw [List.mem_toFinset, List.mem_filter] at htmin
      obtain ⟨htmintask, htminnp⟩ := htmin
      have htminnp' : tmin.id ∉ plan'.flatten.map Task.id := by
        simpa using htminnp
      have hq := (hinv.qchar tmin htmintask)
      have hnz : remDeg tasks (plan'.flatten.map Task.id) tmin ≠ 0 := by
        intro h0
        have : tmin.id ∈ ([] : List Int) := hq.2 ⟨htminnp', h0⟩
        simp at this
      have hex2 : ∃ d ∈ tmin.depends_on,
          d ∈ taskIds tasks ∧ d ∉ plan'.flatten.map Task.id := by
        by_contra hno
        push_neg at hno
        exact hnz ((remDeg_eq_zero_iff _ _ _).2 hno)
      obtain ⟨d, hd, hdv, hdnp⟩ := hex2
      obtain ⟨u, hu, huid⟩ := exists_task_of_mem_ids hdv
      have huS : u ∈ (tasks.filter fun t =>
          decide (¬ t.id ∈ plan'.flatten.map Task.id)).toFinset := by
        rw [List.mem_toFinset, List.mem_filter]
        exact ⟨hu, by simpa [huid] using hdnp⟩
      have hrank := hr tmin htmintask d hd hdv
      have hminrank := hmin u huS
      rw [huid] at hminrank
      omega
    have hPperm : (plan'.flatten.map Task.id).Perm (taskIds tasks) := by
      rw [List.perm_ext_iff_of_nodup hinv.pnodup hn]
      intro x
      constructor
      · exact hinv.psub x
      · intro hx
        obtain ⟨t, ht, rfl⟩ := exists_task_of_mem_ids hx
        exact hall t ht
    have hlen : (plan'.flatten.map Task.id).length = tasks.length := by
      rw [hPperm.length_eq]
      simp [taskIds]
    have htasksnd : tasks.Nodup := List.Nodup.of_map Task.id hn
    have hflatnd : plan'.flatten.Nodup :=
      List.Nodup.of_map Task.id hinv.pnodup
    have hflatperm : plan'.flatten.Perm tasks := by
      rw [List.perm_ext_iff_of_nodup hflatnd htasksnd]
      intro u
      constructor
      · intro hu
        exact (buildTaskMap_mem_of_get (hinv.planTasks u hu)).1
      · intro hu
        have : u.id ∈ plan'.flatten.map Task.id := hall u hu
        rcases List.mem_map.1 this with ⟨w, hw, hwid⟩
        have hwget := hinv.planTasks w hw
        have huget := buildTaskMap_get_self hn hu
        rw [hwid] at hwget
        rw [huget] at hwget
        injection hwget with hwu
        rw [hwu]
        exact hw
    refine ⟨plan', ?_, hflatperm, hinv.levels⟩
    rw [build_execution_plan_eq tasks hemp plan' hres, hlen]
    simp

/-- A task whose id lies on a cycle of the valid-dependency graph is never
popped, so `_build_execution_plan` raises the circular-dependency error and
names that id among the unprocessed tasks. -/
theorem build_plan_cycle (tasks : List Task) (hn : (taskIds tasks).Nodup)
    {a : Int} (hcyc : Relation.TransGen (validDep tasks) a a) :
    ∃ l, build_execution_plan tasks = .error (.circular l) ∧ a ∈ l := by
  have hsource : ∀ x y : Int, Relation.TransGen (validDep tasks) x y →
      x ∈ taskIds tasks := by
    intro x y h
    induction h using Relation.TransGen.head_induction_on with
    | base h =>
      obtain ⟨t, ht, htid, hdep, hids⟩ := h
      exact hids
    | ih h' h ihh =>
      obtain ⟨t, ht, htid, hdep, hids⟩ := h'
      exact hids
  have haid : a ∈ taskIds tasks := hsource a a hcyc
  have hemp : ¬ tasks.isEmpty = true := by
    intro h
    rw [List.isEmpty_iff.1 h] at haid
    simp [taskIds] at haid
  obtain ⟨inDeg', plan', hres, hinv⟩ :=
    kahnLoop_master tasks hn (tasks.length + 1) (buildDeps tasks).1
      (((buildDeps tasks).1.filter fun p => p.2 = 0).map Prod.fst) [] 0
      (kahnInv_init tasks hn) (by omega)
  have hstep : ∀ x y : Int, validDep tasks x y → ∀ j, InLevel plan' j y →
      ∃ i, i < j ∧ InLevel plan' i x := by
    rintro x y ⟨t, ht, htid, hxdep, hxids⟩ j ⟨group, hg, u, hug, huid⟩
    have huget := hinv.planTasks u
      (List.mem_flatten.2 ⟨group, List.mem_iff_getElem?.2 ⟨j, hg⟩, hug⟩)
    have htget := buildTaskMap_get_self hn ht
    rw [huid, ← htid] at huget
    rw [huget] at htget
    injection htget with htu
    obtain ⟨i, group', hij, hig, w, hwg, hwid⟩ :=
      hinv.levels j group hg u hug x (by rw [← htu] at hxdep; exact hxdep)
        hxids
    exact ⟨i, hij, group', hig, w, hwg, hwid⟩
  have hdesc : ∀ x y : Int, Relation.TransGen (validDep tasks) x y →
      ∀ j, InLevel plan' j y → ∃ i, i < j ∧ InLevel plan' i x := by
    intro x y hx
    induction hx with
    | single h => exact fun j hj => hstep _ _ h j hj
    | tail htg hr ihx =>
      intro j hj
      obtain ⟨i, hij, hib⟩ := hstep _ _ hr j hj
      obtain ⟨i', hi', hix⟩ := ihx i hib
      exact ⟨i', lt_trans hi' hij, hix⟩
  have hnotP : a ∉ plan'.flatten.map Task.id := by
    intro hmem
    obtain ⟨j0, group, hg, hex⟩ := (mem_flatten_map_id plan' a).1 hmem
    have hno : ∀ j, ¬ InLevel plan' j a := by
      intro j
      induction j using Nat.strong_induction_on with
      | _ j ihj =>
        intro hj
        obtain ⟨i, hij, hia⟩ := hdesc a a hcyc j hj
        exact ihj i hij hia
    exact hno j0 ⟨group, hg, hex⟩
  have hlt : (plan'.flatten.map Task.id).length < tasks.length := by
    have := length_lt_of_missing hinv.pnodup hinv.psub haid hnotP
    simpa [taskIds] using this
  rw [build_execution_plan_eq tasks hemp plan' hres, if_pos hlt]
  refine ⟨_, rfl, ?_⟩
  obtain ⟨ta, hta, htaid⟩ := exists_task_of_mem_ids haid
  refine List.mem_map.2 ⟨ta, List.mem_filter.2 ⟨hta, ?_⟩, htaid⟩
  rw [htaid]
  simpa using hnotP

end Borsaci

namespace Borsaci

/-- Soundness of the rank formalisation of acyclicity: a graph with a
topological rank has no directed cycle in the valid-dependency relation. -/
theorem rankedAcyclic_no_cycle (tasks : List Task) (rank : Int → Nat)
    (hr : RankedAcyclic tasks rank) (a : Int) :
    ¬ Relation.TransGen (validDep tasks) a a := by
  have hmono : ∀ x y : Int, Relation.TransGen (validDep tasks) x y →
      rank x < rank y := by
    intro x y h
    induction h with
    | single h =>
      obtain ⟨t, ht, rfl, hdep, hids⟩ := h
      exact hr t ht _ hdep hids
    | tail htg hstep ihm =>
      obtain ⟨t, ht, rfl, hdep, hids⟩ := hstep
      exact lt_trans ihm (hr t ht _ hdep hids)
  intro h
  exact lt_irrefl _ (hmono a a h)

/-! ## Claim theorems: the scheduler (C1-C3) -/

/-- **C1**: for every task list whose task identifiers are unique and whose
valid-dependency graph (ignoring prerequisites naming unknown ids) is
acyclic — witnessed by a topological rank, the standard characterisation of
acyclicity for finite graphs (`rankedAcyclic_no_cycle`) —
`_build_execution_plan` returns a sequence of levels whose concatenation
contains every input task exactly once, and every declared prerequisite
that exists in the task set appears in a strictly earlier level than the
task that declares it. -/
theorem C1_build_plan_dag_correct (tasks : List Task)
    (hn : (taskIds tasks).Nodup) (rank : Int → Nat)
    (hr : RankedAcyclic tasks rank) :
    ∃ plan, build_execution_plan tasks = .ok plan ∧
      (∀ t ∈ tasks, plan.flatten.count t = 1) ∧
      plan.flatten.Perm tasks ∧
      LevelsOk tasks plan := by
  obtain ⟨plan, hok, hperm, hlev⟩ := build_plan_dag tasks hn rank hr
  refine ⟨plan, hok, ?_, hperm, hlev⟩
  intro t ht
  rw [hperm.count_eq]
  exact List.count_eq_one_of_mem (List.Nodup.of_map Task.id hn) ht

theorem C1_witness :
    (taskIds [⟨1, "t1", false, none, []⟩, ⟨2, "t2", false, none, []⟩,
      ⟨3, "t3", false, none, [1, 2]⟩]).Nodup ∧
    RankedAcyclic [⟨1, "t1", false, none, []⟩, ⟨2, "t2", false, none, []⟩,
      ⟨3, "t3", false, none, [1, 2]⟩] (fun id => if id = 3 then 1 else 0) ∧
    ∃ plan, build_execution_plan
        [⟨1, "t1", false, none, []⟩, ⟨2, "t2", false, none, []⟩,
         ⟨3, "t3", false, none, [1, 2]⟩] = .ok plan ∧
      (∀ t ∈ [⟨1, "t1", false, none, []⟩, ⟨2, "t2", false, none, []⟩,
        ⟨3, "t3", false, none, [1, 2]⟩], plan.flatten.count t = 1) ∧
      plan.flatten.Perm
        [⟨1, "t1", false, none, []⟩, ⟨2, "t2", false, none, []⟩,
         ⟨3, "t3", false, none, [1, 2]⟩] ∧
      LevelsOk [⟨1, "t1", false, none, []⟩, ⟨2, "t2", false, none, []⟩,
        ⟨3, "t3", false, none, [1, 2]⟩] plan :=
  ⟨by decide, by decide,
    C1_build_plan_dag_correct _ (by decide)
      (fun id => if id = 3 then 1 else 0) (by decide)⟩

/-- **C3**: a task declaring a prerequisite id not present in the set is
still scheduled: the dangling reference's contribution to the stored
in-degree is removed (the final `in_degree` entry counts only existing
prerequisites), `_build_execution_plan` does not raise, and the depending
task is placed in some level of the returned plan.  (The task list is
assumed to satisfy the data-model invariant: unique ids and an acyclic
valid-dependency graph.) -/
theorem C3_dangling_dependency_tolerated (tasks : List Task)
    (hn : (taskIds tasks).Nodup) (rank : Int → Nat)
    (hr : RankedAcyclic tasks rank) {t : Task} (ht : t ∈ tasks) {d : Int}
    (hd : d ∈ t.depends_on) (hdangling : d ∉ taskIds tasks) :
    dictGet (buildDeps tasks).1 t.id =
      some ((t.depends_on.countP fun d =>
        decide (d ∈ taskIds tasks) : Nat) : Int) ∧
    ∃ plan, build_execution_plan tasks = .ok plan ∧
      ∃ level ∈ plan, t ∈ level := by
  refine ⟨buildDeps_get_self tasks hn ht, ?_⟩
  obtain ⟨plan, hok, hperm, -⟩ := build_plan_dag tasks hn rank hr
  refine ⟨plan, hok, ?_⟩
  have hmem : t ∈ plan.flatten := hperm.mem_iff.2 ht
  rcases List.mem_flatten.1 hmem with ⟨level, hlev, hmem2⟩
  exact ⟨level, hlev, hmem2⟩

theorem C3_witness :
    (taskIds [⟨1, "a", false, none, [99]⟩,
      ⟨2, "b", false, none, [1]⟩]).Nodup ∧
    RankedAcyclic [⟨1, "a", false, none, [99]⟩, ⟨2, "b", false, none, [1]⟩]
      (fun id => if id = 2 then 1 else 0) ∧
    (⟨1, "a", false, none, [99]⟩ : Task) ∈
      [⟨1, "a", false, none, [99]⟩, ⟨2, "b", false, none, [1]⟩] ∧
    (99 : Int) ∈ (⟨1, "a", false, none, [99]⟩ : Task).depends_on ∧
    (99 : Int) ∉ taskIds [⟨1, "a", false, none, [99]⟩,
      ⟨2, "b", false, none, [1]⟩] ∧
    (dictGet (buildDeps [⟨1, "a", false, none, [99]⟩,
        ⟨2, "b", false, none, [1]⟩]).1 (1 : Int) =
      some (((⟨1, "a", false, none, [99]⟩ : Task).depends_on.countP fun d =>
        decide (d ∈ taskIds [⟨1, "a", false, none, [99]⟩,
          ⟨2, "b", false, none, [1]⟩]) : Nat) : Int) ∧
    ∃ plan, build_execution_plan [⟨1, "a", false, none, [99]⟩,
        ⟨2, "b", false, none, [1]⟩] = .ok plan ∧
      ∃ level ∈ plan, (⟨1, "a", false, none, [99]⟩ : Task) ∈ level) :=
  ⟨by decide, by decide, by decide, by decide, by decide,
    C3_dangling_dependency_tolerated
      [⟨1, "a", false, none, [99]⟩, ⟨2, "b", false, none, [1]⟩]
      (by decide) (fun id => if id = 2 then 1 else 0) (by decide)
      (show (⟨1, "a", false, none, [99]⟩ : Task) ∈
        [⟨1, "a", false, none, [99]⟩, ⟨2, "b", false, none, [1]⟩] by decide)
      (show (99 : Int) ∈ (⟨1, "a", false, none, [99]⟩ : Task).depends_on
        by decide)
      (show (99 : Int) ∉ taskIds [⟨1, "a", false, none, [99]⟩,
        ⟨2, "b", false, none, [1]⟩] by decide)⟩

end Borsaci

namespace Borsaci

/-- **C2**: a dependency cycle among tasks whose ids all exist makes
`_build_execution_plan` raise the fatal circular-dependency error, whose
payload names the unresolved (unprocessed) task identifiers — no partial
plan is returned — and `run` propagates that error from the planning step,
before any task executes.  (Unique ids are the data-model invariant of a
planning run.) -/
theorem C2_cycle_fatal_error (tasks : List Task)
    (hn : (taskIds tasks).Nodup) {a : Int}
    (hcyc : Relation.TransGen (validDep tasks) a a) :
    ∃ l, build_execution_plan tasks = .error (.circular l) ∧ a ∈ l ∧
      ∀ (env : Env) (maxSteps maxStepsPerTask : Nat),
        env.router = none → env.planner = some tasks →
        run env maxSteps maxStepsPerTask = .error (.circular l) := by
  obtain ⟨l, herr, hal⟩ := build_plan_cycle tasks hn hcyc
  have hemp : tasks.isEmpty = false := by
    cases htasks : tasks.isEmpty
    · rfl
    · exfalso
      unfold build_execution_plan at herr
      rw [if_pos htasks] at herr
      exact Except.noConfusion herr
  refine ⟨l, herr, hal, ?_⟩
  intro env m mpt hrouter hplanner
  simp only [run, hrouter]
  simp only [planPhase, hplanner, Option.getD_some, hemp,
    Bool.false_eq_true, if_false, herr]

theorem C2_witness :
    (taskIds [⟨1, "a", false, none, [2]⟩,
      ⟨2, "b", false, none, [1]⟩]).Nodup ∧
    Relation.TransGen
      (validDep [⟨1, "a", false, none, [2]⟩, ⟨2, "b", false, none, [1]⟩])
      1 1 ∧
    ∃ l, build_execution_plan
        [⟨1, "a", false, none, [2]⟩, ⟨2, "b", false, none, [1]⟩] =
        .error (.circular l) ∧ (1 : Int) ∈ l ∧
      ∀ (env : Env) (maxSteps maxStepsPerTask : Nat),
        env.router = none →
        env.planner = some [⟨1, "a", false, none, [2]⟩,
          ⟨2, "b", false, none, [1]⟩] →
        run env maxSteps maxStepsPerTask = .error (.circular l) := by
  have h12 : validDep [⟨1, "a", false, none, [2]⟩,
      ⟨2, "b", false, none, [1]⟩] 1 2 :=
    ⟨⟨2, "b", false, none, [1]⟩, by decide, rfl, by decide, by decide⟩
  have h21 : validDep [⟨1, "a", false, none, [2]⟩,
      ⟨2, "b", false, none, [1]⟩] 2 1 :=
    ⟨⟨1, "a", false, none, [2]⟩, by decide, rfl, by decide, by decide⟩
  exact ⟨by decide,
    Relation.TransGen.tail (Relation.TransGen.single h12) h21,
    C2_cycle_fatal_error _ (by decide)
      (Relation.TransGen.tail (Relation.TransGen.single h12) h21)⟩

end Borsaci

namespace Borsaci

/-! ## Theorems: `dict(results)` and the flush loop -/

theorem dictOfList_snoc {α : Type} (l : List (Int × α)) (p : Int × α) :
    dictOfList (l ++ [p]) = dictSet (dictOfList l) p.1 p.2 := by
  unfold dictOfList
  rw [List.foldl_append]
  rfl

theorem dictGet_dictOfList {α : Type} :
    ∀ (l : List (Int × α)), (l.map Prod.fst).Nodup → ∀ (k : Int) (v : α),
      (dictGet (dictOfList l) k = some v ↔ (k, v) ∈ l) := by
  intro l
  induction l using List.reverseRecOn with
  | nil => intro _ k v; simp [dictOfList, dictGet]
  | append_singleton l p ih =>
    intro hnd k v
    obtain ⟨a, b⟩ := p
    rw [List.map_append] at hnd
    rw [List.nodup_append] at hnd
    obtain ⟨hnd1, -, hdisj⟩ := hnd
    rw [dictOfList_snoc]
    by_cases hk : a = k
    · subst hk
      rw [dictGet_dictSet_self]
      simp only [Option.some.injEq, List.mem_append, List.mem_singleton,
        Prod.mk.injEq]
      constructor
      · intro hv
        exact Or.inr ⟨trivial, hv.symm⟩
      · rintro (hm | ⟨-, hv⟩)
        · exfalso
          exact hdisj (List.mem_map_of_mem Prod.fst hm) (by simp)
        · exact hv.symm
    · rw [dictGet_dictSet_ne _ _ hk, ih hnd1 k v]
      simp only [List.mem_append, List.mem_singleton, Prod.mk.injEq]
      constructor
      · exact Or.inl
      · rintro (hm | ⟨hka, -⟩)
        · exact hm
        · exact absurd hka.symm hk

theorem mem_dictKeys_dictOfList {α : Type} (l : List (Int × α))
    (hnd : (l.map Prod.fst).Nodup) (k : Int) :
    k ∈ dictKeys (dictOfList l) ↔ k ∈ l.map Prod.fst := by
  rw [← dictGet_isSome_iff, Option.isSome_iff_exists]
  constructor
  · rintro ⟨v, hv⟩
    exact List.mem_map_of_mem Prod.fst ((dictGet_dictOfList l hnd k v).1 hv)
  · intro hk
    rcases List.mem_map.1 hk with ⟨⟨a, b⟩, hp, he⟩
    simp only at he
    subst he
    exact ⟨b, (dictGet_dictOfList l hnd a b).2 hp⟩

/-- For duplicate-free keys, the dict built from the results list does not
depend on the order in which the results arrived. -/
theorem dictGetD_dictOfList_perm {α : Type} (l₁ l₂ : List (Int × α))
    (hperm : l₁.Perm l₂) (hnd : (l₁.map Prod.fst).Nodup) (k : Int)
    (dflt : α) :
    dictGetD (dictOfList l₁) k dflt = dictGetD (dictOfList l₂) k dflt := by
  have hnd₂ : (l₂.map Prod.fst).Nodup :=
    ((hperm.map Prod.fst).nodup_iff).1 hnd
  cases hg : dictGet (dictOfList l₁) k with
  | some v =>
    have hm : (k, v) ∈ l₂ := hperm.mem_iff.1 ((dictGet_dictOfList l₁ hnd k v).1 hg)
    rw [dictGetD, dictGetD, hg, (dictGet_dictOfList l₂ hnd₂ k v).2 hm]
  | none =>
    have hk1 : k ∉ dictKeys (dictOfList l₁) := (dictGet_eq_none_iff _ k).1 hg
    rw [mem_dictKeys_dictOfList l₁ hnd] at hk1
    have hk2 : k ∉ l₂.map Prod.fst := fun hk =>
      hk1 ((hperm.map Prod.fst).mem_iff.2 hk)
    rw [← mem_dictKeys_dictOfList l₂ hnd₂] at hk2
    rw [dictGetD, dictGetD, hg, (dictGet_eq_none_iff _ k).2 hk2]

theorem flushGroup_spec (d : List (Int × List String)) :
    ∀ (group : List Task) (outs : List String) (step : Nat),
      flushGroup d group (outs, step) =
        (outs ++ group.flatMap fun t => dictGetD d t.id [],
         step + (group.map fun t => (dictGetD d t.id []).length).sum) := by
  intro group
  induction group with
  | nil => intro outs step; simp [flushGroup]
  | cons t ts ih =>
    intro outs step
    have h1 : flushGroup d (t :: ts) (outs, step) =
        flushGroup d ts (outs ++ dictGetD d t.id [],
          step + (dictGetD d t.id []).length) := rfl
    rw [h1, ih]
    simp [List.flatMap_cons, List.append_assoc, Nat.add_assoc]

theorem flushGroup_congr (d₁ d₂ : List (Int × List String))
    (group : List Task)
    (h : ∀ t ∈ group, dictGetD d₁ t.id [] = dictGetD d₂ t.id [])
    (outs : List String) (step : Nat) :
    flushGroup d₁ group (outs, step) = flushGroup d₂ group (outs, step) := by
  have hf : (group.flatMap fun t => dictGetD d₁ t.id []) =
      group.flatMap fun t => dictGetD d₂ t.id [] := by
    unfold List.flatMap
    rw [List.map_congr_left fun t ht => h t ht]
  have hs : (group.map fun t => (dictGetD d₁ t.id []).length) =
      group.map fun t => (dictGetD d₂ t.id []).length :=
    List.map_congr_left fun t ht => by rw [h t ht]
  rw [flushGroup_spec, flushGroup_spec, hf, hs]

end Borsaci

namespace Borsaci

/-! ## Theorems: the level loop and its trace -/

theorem seqTasks_acc (env : Env) (m mpt : Nat) :
    ∀ (ts : List Task) (outs : List String) (step : Nat),
      seqTasks env m mpt ts (outs, step) =
        (outs ++ (seqTasks env m mpt ts ([], step)).1,
         step + (seqTasks env m mpt ts ([], step)).1.length) := by
  intro ts
  induction ts with
  | nil => intro outs step; simp [seqTasks]
  | cons t ts ih =>
    intro outs step
    have h1 : ∀ (os : List String) (sp : Nat), ¬ m ≤ sp →
        seqTasks env m mpt (t :: ts) (os, sp) =
          seqTasks env m mpt ts
            (os ++ execute_task env m mpt t.id sp,
             sp + (execute_task env m mpt t.id sp).length) := by
      intro os sp hsp
      show (if m ≤ sp then (os, sp) else _) = _
      rw [if_neg hsp]
    have h2 : ∀ (os : List String) (sp : Nat), m ≤ sp →
        seqTasks env m mpt (t :: ts) (os, sp) = (os, sp) := by
      intro os sp hsp
      show (if m ≤ sp then (os, sp) else _) = _
      rw [if_pos hsp]
    by_cases hb : m ≤ step
    · rw [h2 outs step hb, h2 [] step hb]
      simp
    · rw [h1 outs step hb, h1 [] step hb,
        ih (outs ++ execute_task env m mpt t.id step)
          (step + (execute_task env m mpt t.id step).length),
        ih ([] ++ execute_task env m mpt t.id step)
          (step + (execute_task env m mpt t.id step).length)]
      simp [List.append_assoc, Nat.add_assoc]

theorem runLevels_stop (env : Env) (m mpt : Nat) (plan : List (List Task))
    (acc : List String × Nat) (h : m ≤ acc.2) :
    runLevels env m mpt plan acc = acc := by
  cases plan with
  | nil => rfl
  | cons g rest =>
    show (if m ≤ acc.2 then acc else _) = acc
    rw [if_pos h]

theorem runLevels_cons_step (env : Env) (m mpt : Nat) (g : List Task)
    (rest : List (List Task)) (outs : List String) (step : Nat)
    (hb : ¬ m ≤ step) :
    runLevels env m mpt (g :: rest) (outs, step) =
      runLevels env m mpt rest
        (outs ++ levelOutputs env m mpt step g,
         step + (levelOutputs env m mpt step g).length) := by
  have h0 : runLevels env m mpt (g :: rest) (outs, step) =
      runLevels env m mpt rest
        (if env.parallelEnabled ∧ 1 < g.length then
          flushGroup
            (dictOfList (execute_task_group_parallel env m mpt step g)) g
            (outs, step)
        else seqTasks env m mpt g (outs, step)) := by
    show (if m ≤ step then (outs, step) else _) = _
    rw [if_neg hb]
  rw [h0]
  by_cases hp : env.parallelEnabled ∧ 1 < g.length
  · rw [if_pos hp]
    have hL : levelOutputs env m mpt step g =
        g.flatMap fun t =>
          dictGetD (dictOfList (execute_task_group_parallel env m mpt step g))
            t.id [] := by
      simp [levelOutputs, if_pos hp, flushGroup_spec]
    rw [flushGroup_spec, hL]
    have hlen : (g.flatMap fun t =>
        dictGetD (dictOfList (execute_task_group_parallel env m mpt step g))
          t.id []).length =
        (g.map fun t =>
          (dictGetD (dictOfList (execute_task_group_parallel env m mpt step g))
            t.id []).length).sum := by
      rw [List.length_flatMap]
      rfl
    rw [hlen]
  · rw [if_neg hp]
    have hL : levelOutputs env m mpt step g =
        (seqTasks env m mpt g ([], step)).1 := by
      simp [levelOutputs, if_neg hp]
    rw [seqTasks_acc env m mpt g outs step, hL]

theorem runLevelsTrace_nil (env : Env) (m mpt step : Nat) :
    runLevelsTrace env m mpt [] step = [] := rfl

theorem runLevelsTrace_cons (env : Env) (m mpt : Nat) (g : List Task)
    (rest : List (List Task)) (step : Nat) :
    runLevelsTrace env m mpt (g :: rest) step =
      if m ≤ step then []
      else
        (step, levelOutputs env m mpt step g) ::
          runLevelsTrace env m mpt rest
            (step + (levelOutputs env m mpt step g).length) := rfl

theorem runLevels_trace_agree (env : Env) (m mpt : Nat) :
    ∀ (plan : List (List Task)) (outs : List String) (step : Nat),
      runLevels env m mpt plan (outs, step) =
        (outs ++ ((runLevelsTrace env m mpt plan step).map Prod.snd).flatten,
         step +
           ((runLevelsTrace env m mpt plan step).map Prod.snd).flatten.length) := by
  intro plan
  induction plan with
  | nil => intro outs step; simp [runLevels, runLevelsTrace_nil]
  | cons g rest ih =>
    intro outs step
    by_cases hb : m ≤ step
    · rw [runLevels_stop env m mpt _ _ hb, runLevelsTrace_cons, if_pos hb]
      simp
    · rw [runLevels_cons_step env m mpt g rest outs step hb,
        runLevelsTrace_cons, if_neg hb, ih]
      simp [List.append_assoc, Nat.add_assoc]

theorem runLevelsTrace_start_lt (env : Env) (m mpt : Nat) :
    ∀ (plan : List (List Task)) (step : Nat),
      ∀ p ∈ runLevelsTrace env m mpt plan step, p.1 < m := by
  intro plan
  induction plan with
  | nil => intro step p hp; rw [runLevelsTrace_nil] at hp; cases hp
  | cons g rest ih =>
    intro step p hp
    rw [runLevelsTrace_cons] at hp
    by_cases hb : m ≤ step
    · rw [if_pos hb] at hp; cases hp
    · rw [if_neg hb] at hp
      rcases List.mem_cons.1 hp with he | hm
      · rw [he]; exact not_le.mp hb
      · exact ih _ p hm

theorem runLevelsTrace_getLast (env : Env) (m mpt : Nat) :
    ∀ (plan : List (List Task)) (step : Nat) (p : Nat × List String),
      (runLevelsTrace env m mpt plan step).getLast? = some p →
      step +
          ((runLevelsTrace env m mpt plan step).map Prod.snd).flatten.length =
        p.1 + p.2.length := by
  intro plan
  induction plan with
  | nil =>
    intro step p h
    rw [runLevelsTrace_nil] at h
    exact Option.noConfusion h
  | cons g rest ih =>
    intro step p h
    rw [runLevelsTrace_cons] at h ⊢
    by_cases hb : m ≤ step
    · rw [if_pos hb] at h
      exact Option.noConfusion h
    · rw [if_neg hb] at h ⊢
      cases htr : runLevelsTrace env m mpt rest
          (step + (levelOutputs env m mpt step g).length) with
      | nil =>
        rw [htr] at h
        have hp : (step, levelOutputs env m mpt step g) = p := by
          have : some (step, levelOutputs env m mpt step g) = some p := h
          exact Option.some.inj this
        rw [← hp]
        simp
      | cons q tr =>
        rw [htr, List.getLast?_cons_cons, ← htr] at h
        have h2 := ih (step + (levelOutputs env m mpt step g).length) p h
        rw [htr] at h2
        simp only [List.map_cons, List.flatten_cons, List.length_append] at h2 ⊢
        omega

end Borsaci

namespace Borsaci

/-! ## Theorems: parallel groups, the task iteration, and routing -/

theorem execute_single_fst (env : Env) (m mpt s : Nat) (t : Task) :
    (execute_single env m mpt s t).1 = t.id := by
  cases h : env.taskRaises t.id <;> simp [execute_single, h]

theorem parallel_keys (env : Env) (m mpt s : Nat) (group : List Task) :
    (execute_task_group_parallel env m mpt s group).map Prod.fst =
      group.map Task.id := by
  simp only [execute_task_group_parallel, List.map_map]
  exact List.map_congr_left fun u _ => execute_single_fst env m mpt s u

theorem parallel_dict_lookup (env : Env) (m mpt s : Nat) (group : List Task)
    (hnd : (group.map Task.id).Nodup) {t : Task} (ht : t ∈ group) :
    dictGetD (dictOfList (execute_task_group_parallel env m mpt s group))
      t.id [] = (execute_single env m mpt s t).2 := by
  have hnd' : ((execute_task_group_parallel env m mpt s group).map
      Prod.fst).Nodup := by
    rw [parallel_keys]; exact hnd
  have hmem : execute_single env m mpt s t ∈
      execute_task_group_parallel env m mpt s group :=
    List.mem_map_of_mem (execute_single env m mpt s) ht
  have he : execute_single env m mpt s t =
      (t.id, (execute_single env m mpt s t).2) := by
    cases h : env.taskRaises t.id <;> simp [execute_single, h]
  rw [he] at hmem
  have hg := (dictGet_dictOfList _ hnd' t.id
    (execute_single env m mpt s t).2).2 hmem
  simp only [dictGetD, hg, Option.getD_some]

theorem levelOutputs_parallel (env : Env) (m mpt s : Nat) (group : List Task)
    (hp : env.parallelEnabled ∧ 1 < group.length)
    (hnd : (group.map Task.id).Nodup) :
    levelOutputs env m mpt s group =
      group.flatMap fun t => (execute_single env m mpt s t).2 := by
  have h1 : levelOutputs env m mpt s group =
      group.flatMap fun t =>
        dictGetD (dictOfList (execute_task_group_parallel env m mpt s group))
          t.id [] := by
    simp [levelOutputs, if_pos hp, flushGroup_spec]
  rw [h1]
  unfold List.flatMap
  rw [List.map_congr_left fun t ht =>
    parallel_dict_lookup env m mpt s group hnd ht]

theorem executeTaskIter_length (env : Env) (m mpt : Nat) (tid : Int)
    (cs : Nat) :
    ∀ (fuel iter : Nat) (outs : List String),
      (executeTaskIter env m mpt tid cs iter fuel outs).length ≤
        outs.length + fuel := by
  intro fuel
  induction fuel with
  | zero => intro iter outs; simp [executeTaskIter]
  | succ fuel ih =>
    intro iter outs
    have key : ∀ outs' : List String, outs'.length ≤ outs.length + 1 →
        (if (validate_task env tid outs').done then outs'
         else executeTaskIter env m mpt tid cs (iter + 1) fuel outs').length ≤
          outs.length + (fuel + 1) := by
      intro outs' h
      by_cases hd : (validate_task env tid outs').done
      · rw [if_pos hd]; omega
      · rw [if_neg hd]
        have h2 := ih (iter + 1) outs'
        omega
    simp only [executeTaskIter]
    split
    · omega
    · split
      · simp only [List.length_append, List.length_singleton]
        omega
      · apply key
        split
        · omega
        · simp only [List.length_append, List.length_singleton]
          omega
      · apply key
        simp only [List.length_append, List.length_singleton]
        omega

theorem planPhase_ne_simple (env : Env) (m mpt : Nat) (a : String) :
    planPhase env m mpt ≠ .ok (.simple a) := by
  intro h
  simp only [planPhase] at h
  split at h
  · exact RunOutcome.noConfusion (Except.ok.inj h)
  · split at h
    · exact Except.noConfusion h
    · exact RunOutcome.noConfusion (Except.ok.inj h)

end Borsaci

namespace Borsaci

/-! ## Claims C4-C6 -/

/-- C4 (amended): with a step budget of zero the level loop executes
nothing, and `run` goes straight to synthesis with an empty accumulator and
a zero step count; but the claim's constructor path is wrong:
`max_steps or int(os.getenv("MAX_STEPS", "20"))` maps the explicit argument
`0` to the environment default, so an agent constructed with `max_steps=0`
does not have a zero budget. -/
theorem C4_max_steps_zero (env : Env) (mpt : Nat) (tasks : List Task)
    (plan : List (List Task)) (hr : env.router = none)
    (hp : env.planner = some tasks) (hne : tasks ≠ [])
    (hplan : build_execution_plan tasks = .ok plan) :
    (∀ (plan' : List (List Task)) (acc : List String × Nat),
        runLevels env 0 mpt plan' acc = acc) ∧
    run env 0 mpt = .ok (.planned [] 0 (env.answerer [])) ∧
    ∀ d : Int, initMaxSteps (some 0) d = d := by
  refine ⟨fun plan' acc => runLevels_stop env 0 mpt plan' acc (Nat.zero_le _),
    ?_, fun d => rfl⟩
  have hie : tasks.isEmpty = false := by
    cases tasks with
    | nil => exact absurd rfl hne
    | cons a l => rfl
  simp only [run, hr, planPhase, hp, Option.getD_some, hie,
    Bool.false_eq_true, if_false, hplan]
  rw [runLevels_stop env 0 mpt plan ([], 0) (Nat.zero_le _)]

/-- C4 witness: a one-task plan under a zero budget executes nothing. -/
theorem C4_witness :
    (wEnvPlanned.router = none ∧
      wEnvPlanned.planner = some [⟨1, "t1", false, none, []⟩] ∧
      ([⟨1, "t1", false, none, []⟩] : List Task) ≠ [] ∧
      build_execution_plan [⟨1, "t1", false, none, []⟩] =
        .ok [[⟨1, "t1", false, none, []⟩]]) ∧
    run wEnvPlanned 0 1 = .ok (.planned [] 0 "synth") :=
  ⟨⟨rfl, rfl, by decide, by decide⟩,
   (C4_max_steps_zero wEnvPlanned 1 [⟨1, "t1", false, none, []⟩]
     [[⟨1, "t1", false, none, []⟩]] rfl rfl (by decide) (by decide)).2.1⟩

/-- C4 counterexample: the constructor receiving `max_steps = 0` yields the
environment default (here 20), under which the planned task does execute —
refuting the claim's constructor path. -/
theorem C4_counterexample :
    initMaxSteps (some 0) 20 = 20 ∧
    run wEnvPlanned (initMaxSteps (some 0) 20).toNat 1 =
      .ok (.planned ["a"] 1 "synth") ∧
    (["a"] : List String) ≠ [] := by
  refine ⟨rfl, ?_, by decide⟩
  decide

/-- C5: in a parallel group a raising task is isolated — the gathered
results keep one entry per task in declared order, the failing task's entry
is the single descriptive error string, siblings' entries are their normal
outputs, and the flush adds the output count of every task of the level,
the failed one included. -/
theorem C5_parallel_isolation (env : Env) (m mpt s : Nat)
    (group : List Task) (outs : List String) (t : Task) (e : String)
    (hnd : (group.map Task.id).Nodup) (ht : t ∈ group)
    (he : env.taskRaises t.id = some e) :
    (execute_task_group_parallel env m mpt s group).map Prod.fst =
      group.map Task.id ∧
    dictGetD (dictOfList (execute_task_group_parallel env m mpt s group))
      t.id [] = ["Task " ++ toString t.id ++ " failed: " ++ e] ∧
    (∀ u ∈ group, env.taskRaises u.id = none →
      dictGetD (dictOfList (execute_task_group_parallel env m mpt s group))
        u.id [] = execute_task env m mpt u.id s) ∧
    (flushGroup (dictOfList (execute_task_group_parallel env m mpt s group))
      group (outs, s)).2 =
      s + (group.map fun u =>
        ((execute_single env m mpt s u).2).length).sum := by
  refine ⟨parallel_keys env m mpt s group, ?_, ?_, ?_⟩
  · rw [parallel_dict_lookup env m mpt s group hnd ht]
    simp only [execute_single, he]
  · intro u hu hnone
    rw [parallel_dict_lookup env m mpt s group hnd hu]
    simp only [execute_single, hnone]
  · rw [flushGroup_spec]
    show s + (group.map fun u =>
      (dictGetD (dictOfList (execute_task_group_parallel env m mpt s group))
        u.id []).length).sum = _
    have hcong : (group.map fun u =>
        (dictGetD (dictOfList (execute_task_group_parallel env m mpt s group))
          u.id []).length) =
        group.map fun u => ((execute_single env m mpt s u).2).length :=
      List.map_congr_left fun u hu => by
        rw [parallel_dict_lookup env m mpt s group hnd hu]
    rw [hcong]

/-- C5 witness: of three independent tasks the second raises; its entry is
the error string, siblings produce their outputs, and the flush counts all
three. -/
theorem C5_witness :
    ((wGroup3.map Task.id).Nodup ∧
      (⟨2, "t2", false, none, []⟩ : Task) ∈ wGroup3 ∧
      wEnvFail2.taskRaises (⟨2, "t2", false, none, []⟩ : Task).id =
        some "boom") ∧
    ((execute_task_group_parallel wEnvFail2 10 1 0 wGroup3).map Prod.fst =
      wGroup3.map Task.id ∧
    dictGetD
      (dictOfList (execute_task_group_parallel wEnvFail2 10 1 0 wGroup3))
      (⟨2, "t2", false, none, []⟩ : Task).id [] =
      ["Task " ++ toString (⟨2, "t2", false, none, []⟩ : Task).id ++
        " failed: " ++ "boom"] ∧
    (∀ u ∈ wGroup3, wEnvFail2.taskRaises u.id = none →
      dictGetD
        (dictOfList (execute_task_group_parallel wEnvFail2 10 1 0 wGroup3))
        u.id [] = execute_task wEnvFail2 10 1 u.id 0) ∧
    (flushGroup
      (dictOfList (execute_task_group_parallel wEnvFail2 10 1 0 wGroup3))
      wGroup3 ([], 0)).2 =
      0 + (wGroup3.map fun u =>
        ((execute_single wEnvFail2 10 1 0 u).2).length).sum) :=
  ⟨⟨by decide, by decide, by decide⟩,
   C5_parallel_isolation wEnvFail2 10 1 0 wGroup3 []
     ⟨2, "t2", false, none, []⟩ "boom" (by decide) (by decide) (by decide)⟩

/-- C6: the flushed accumulator after a parallel group lists sibling
outputs in declared group order regardless of completion order — any
permutation of the gathered results builds a dict with the same lookups, so
the flush result is unchanged, and it appends the tasks' outputs in
declared order. -/
theorem C6_declared_order_flush (env : Env) (m mpt s : Nat)
    (group : List Task) (results' : List (Int × List String))
    (outs : List String) (hnd : (group.map Task.id).Nodup)
    (hperm : (execute_task_group_parallel env m mpt s group).Perm results') :
    flushGroup (dictOfList results') group (outs, s) =
      flushGroup (dictOfList (execute_task_group_parallel env m mpt s group))
        group (outs, s) ∧
    (flushGroup (dictOfList (execute_task_group_parallel env m mpt s group))
      group (outs, s)).1 =
      outs ++ group.flatMap fun t => (execute_single env m mpt s t).2 := by
  have hnd' : ((execute_task_group_parallel env m mpt s group).map
      Prod.fst).Nodup := by
    rw [parallel_keys]; exact hnd
  constructor
  · exact flushGroup_congr _ _ group
      (fun t _ => (dictGetD_dictOfList_perm _ _ hperm hnd' t.id []).symm)
      outs s
  · rw [flushGroup_spec]
    show outs ++ (group.flatMap fun t =>
      dictGetD (dictOfList (execute_task_group_parallel env m mpt s group))
        t.id []) = _
    have hcong : (group.flatMap fun t =>
        dictGetD (dictOfList (execute_task_group_parallel env m mpt s group))
          t.id []) =
        group.flatMap fun t => (execute_single env m mpt s t).2 := by
      unfold List.flatMap
      rw [List.map_congr_left fun t ht =>
        parallel_dict_lookup env m mpt s group hnd ht]
    rw [hcong]

/-- C6 witness: reversing the completion order of two sibling results
leaves the flushed accumulator unchanged and in declared order. -/
theorem C6_witness :
    ((wGroup2.map Task.id).Nodup ∧
      (execute_task_group_parallel wEnv 10 1 0 wGroup2).Perm
        [(2, ["a"]), (1, ["a"])]) ∧
    (flushGroup (dictOfList [(2, ["a"]), (1, ["a"])]) wGroup2 ([], 0) =
      flushGroup
        (dictOfList (execute_task_group_parallel wEnv 10 1 0 wGroup2))
        wGroup2 ([], 0) ∧
    (flushGroup
      (dictOfList (execute_task_group_parallel wEnv 10 1 0 wGroup2))
      wGroup2 ([], 0)).1 =
      [] ++ wGroup2.flatMap fun t => (execute_single wEnv 10 1 0 t).2) :=
  ⟨⟨by decide, by decide⟩,
   C6_declared_order_flush wEnv 10 1 0 wGroup2 [(2, ["a"]), (1, ["a"])] []
     (by decide) (by decide)⟩

end Borsaci

namespace Borsaci

/-! ## Claims C7-C10 -/

/-- C7: the simple direct-answer path is taken exactly when the router
flags the query simple with confidence strictly above `0.7` (the direct
answer falling back to the reasoning text when falsy); a low-confidence
simple flag, a non-simple flag, or a router timeout all fall through to the
planning phase. -/
theorem C7_routing_threshold (env : Env) (m mpt : Nat) :
    (∀ br : BaseResponse, env.router = some br → br.is_simple = true →
      br.confidence > 7/10 →
      run env m mpt = .ok (.simple
        (match br.answer with
          | some a => if a = "" then br.reasoning else a
          | none => br.reasoning))) ∧
    (∀ br : BaseResponse, env.router = some br →
      ¬ (br.is_simple = true ∧ br.confidence > 7/10) →
      run env m mpt = planPhase env m mpt) ∧
    (env.router = none → run env m mpt = planPhase env m mpt) ∧
    (∀ a : String, run env m mpt = .ok (.simple a) →
      ∃ br : BaseResponse, env.router = some br ∧ br.is_simple = true ∧
        br.confidence > 7/10) := by
  refine ⟨?_, ?_, ?_, ?_⟩
  · intro br hr hs hc
    have hcond : br.is_simple = true ∧ br.confidence > 7/10 := ⟨hs, hc⟩
    simp only [run, hr, if_pos hcond]
  · intro br hr hcond
    simp only [run, hr, if_neg hcond]
  · intro hr
    simp only [run, hr]
  · intro a ha
    cases hr : env.router with
    | none =>
      rw [show run env m mpt = planPhase env m mpt from by
        simp only [run, hr]] at ha
      exact absurd ha (planPhase_ne_simple env m mpt a)
    | some br =>
      by_cases hcond : br.is_simple = true ∧ br.confidence > 7/10
      · exact ⟨br, rfl, hcond.1, hcond.2⟩
      · rw [show run env m mpt = planPhase env m mpt from by
          simp only [run, hr, if_neg hcond]] at ha
        exact absurd ha (planPhase_ne_simple env m mpt a)

/-- C7 witness (Scenario D): a router answer flagged simple with
confidence 0.95 is returned directly. -/
theorem C7_witness : run wEnvRouter 20 5 = .ok (.simple "Ankara") :=
  (C7_routing_threshold wEnvRouter 20 5).1
    ⟨true, false, 19/20, some "Ankara", "r"⟩ rfl rfl (by norm_num)

/-- C8: the validator fallbacks are asymmetric — a timeout yields
`done = true` with confidence `0.5` and the timeout-default reason, so the
iteration loop stops immediately (Scenario E); any other exception yields
`done = false` with confidence `0.3`, and retries are bounded by the
remaining iterations of the per-task cap. -/
theorem C8_validator_fallback (env : Env) (m mpt : Nat) (tid : Int)
    (cs iter fuel : Nat) (outs : List String) (s : String) :
    (env.validator tid outs = .timeout →
      validate_task env tid outs =
        ⟨true, "Doğrulama zaman aşımı - varsayılan olarak tamamlandı",
         1/2⟩) ∧
    (∀ e, env.validator tid outs = .error e →
      validate_task env tid outs =
        ⟨false, "Doğrulama hatası: " ++ e, 3/10⟩) ∧
    (¬ m ≤ cs + iter → env.actor tid iter outs = .ok s → s ≠ "" →
      env.validator tid (outs ++ [s]) = .timeout →
      executeTaskIter env m mpt tid cs iter (fuel + 1) outs = outs ++ [s]) ∧
    (executeTaskIter env m mpt tid cs iter fuel outs).length ≤
      outs.length + fuel := by
  refine ⟨?_, ?_, ?_, executeTaskIter_length env m mpt tid cs fuel iter outs⟩
  · intro hv
    simp only [validate_task, hv]
  · intro e hv
    simp only [validate_task, hv]
  · intro hb ha hs hv
    have hd : (validate_task env tid (outs ++ [s])).done = true := by
      simp only [validate_task, hv]
    simp only [executeTaskIter, if_neg hb, ha, if_neg hs, hd, if_true]

/-- C9 (amended): in an actor iteration an error message is appended and
the validator is then consulted on the updated outputs; but a timeout
appends its message and breaks out of the loop immediately, without
consulting the validator — the result does not depend on the validator at
all. -/
theorem C9_degraded_output_validation (env : Env) (m mpt : Nat) (tid : Int)
    (cs iter fuel : Nat) (outs : List String) (hb : ¬ m ≤ cs + iter) :
    (∀ e, env.actor tid iter outs = .error e →
      executeTaskIter env m mpt tid cs iter (fuel + 1) outs =
        (if (validate_task env tid
              (outs ++ ["Araç çağrısı başarısız: " ++ e])).done then
          outs ++ ["Araç çağrısı başarısız: " ++ e]
        else
          executeTaskIter env m mpt tid cs (iter + 1) fuel
            (outs ++ ["Araç çağrısı başarısız: " ++ e]))) ∧
    (env.actor tid iter outs = .timeout →
      ∀ validator' : Int → List String → ValidatorOutcome,
        executeTaskIter
          ⟨env.router, env.planner, env.actor, validator', env.taskRaises,
           env.parallelEnabled, env.answerer⟩ m mpt tid cs iter (fuel + 1)
          outs = outs ++ ["İşlem zaman aşımına uğradı"]) := by
  constructor
  · intro e he
    simp only [executeTaskIter, if_neg hb, he]
  · intro ht validator'
    simp only [executeTaskIter, if_neg hb, ht]

/-- C9 witness: in a reachable iteration the amended branch behaviour holds
at a concrete input. -/
theorem C9_witness :
    (¬ (10 : Nat) ≤ 0 + 0) ∧
    ((∀ e, wEnvTimeout.actor 1 0 [] = .error e →
      executeTaskIter wEnvTimeout 10 2 1 0 0 (1 + 1) [] =
        (if (validate_task wEnvTimeout 1
              (([] : List String) ++
                ["Araç çağrısı başarısız: " ++ e])).done then
          ([] : List String) ++ ["Araç çağrısı başarısız: " ++ e]
        else
          executeTaskIter wEnvTimeout 10 2 1 0 (0 + 1) 1
            (([] : List String) ++ ["Araç çağrısı başarısız: " ++ e]))) ∧
    (wEnvTimeout.actor 1 0 [] = .timeout →
      ∀ validator' : Int → List String → ValidatorOutcome,
        executeTaskIter
          ⟨wEnvTimeout.router, wEnvTimeout.planner, wEnvTimeout.actor,
           validator', wEnvTimeout.taskRaises, wEnvTimeout.parallelEnabled,
           wEnvTimeout.answerer⟩ 10 2 1 0 0 (1 + 1) [] =
          ([] : List String) ++ ["İşlem zaman aşımına uğradı"])) :=
  ⟨by decide,
   C9_degraded_output_validation wEnvTimeout 10 2 1 0 0 1 [] (by decide)⟩

/-- C9 counterexample: with an actor that always times out and a validator
that always answers not-done, the source appends the timeout message and
stops after one iteration, while the spec's description (validator consulted
after every append, a timeout included) continues and appends twice. -/
theorem C9_counterexample :
    execute_task wEnvTimeout 10 2 1 0 = ["İşlem zaman aşımına uğradı"] ∧
    executeTaskIterSpec wEnvTimeout 10 2 1 0 0 2 [] =
      ["İşlem zaman aşımına uğradı", "İşlem zaman aşımına uğradı"] ∧
    execute_task wEnvTimeout 10 2 1 0 ≠
      executeTaskIterSpec wEnvTimeout 10 2 1 0 0 2 [] :=
  ⟨by decide, by decide, by decide⟩

/-- C10: the budget is compared only at level boundaries: every level of
the trace starts strictly below `max_steps`, parallel siblings of a level
all run from the level's start count, the session outputs are exactly the
trace's outputs, and the final count equals the last executed level's start
plus that level's total outputs — so it can exceed `max_steps`, but by less
than the last level's output count. -/
theorem C10_budget_overshoot (env : Env) (m mpt : Nat)
    (plan : List (List Task)) :
    (∀ p ∈ runLevelsTrace env m mpt plan 0, p.1 < m) ∧
    (∀ (g : List Task) (s : Nat), env.parallelEnabled ∧ 1 < g.length →
      (g.map Task.id).Nodup →
      levelOutputs env m mpt s g =
        g.flatMap fun t => (execute_single env m mpt s t).2) ∧
    (runLevels env m mpt plan ([], 0)).1 =
      ((runLevelsTrace env m mpt plan 0).map Prod.snd).flatten ∧
    (runLevelsTrace env m mpt plan 0 = [] →
      (runLevels env m mpt plan ([], 0)).2 = 0) ∧
    (∀ p, (runLevelsTrace env m mpt plan 0).getLast? = some p →
      (runLevels env m mpt plan ([], 0)).2 = p.1 + p.2.length ∧ p.1 < m ∧
      (runLevels env m mpt plan ([], 0)).2 < m + p.2.length) := by
  have hrl := runLevels_trace_agree env m mpt plan [] 0
  refine ⟨runLevelsTrace_start_lt env m mpt plan 0,
    fun g s hp hnd => levelOutputs_parallel env m mpt s g hp hnd, ?_, ?_, ?_⟩
  · rw [hrl]
    exact List.nil_append _
  · intro htr
    rw [hrl]
    show (0 : Nat) +
      ((runLevelsTrace env m mpt plan 0).map Prod.snd).flatten.length = 0
    rw [htr]
    simp
  · intro p hp
    have hlast := runLevelsTrace_getLast env m mpt plan 0 p hp
    have hmem : p ∈ runLevelsTrace env m mpt plan 0 :=
      List.mem_of_mem_getLast? (hp ▸ Option.mem_some_iff.2 rfl)
    have hlt := runLevelsTrace_start_lt env m mpt plan 0 p hmem
    rw [hrl]
    refine ⟨hlast, hlt, ?_⟩
    show (0 : Nat) +
      ((runLevelsTrace env m mpt plan 0).map Prod.snd).flatten.length <
        m + p.2.length
    omega

/-- C10 witness: with a budget of 1 a two-task parallel level still runs to
completion and the final count 2 exceeds the budget, within the level's
output total. -/
theorem C10_witness :
    (runLevelsTrace wEnv 1 1 [wGroup2] 0).getLast? =
      some (0, (["a", "a"] : List String)) ∧
    ((runLevels wEnv 1 1 [wGroup2] ([], 0)).2 =
        (0, (["a", "a"] : List String)).1 +
          (0, (["a", "a"] : List String)).2.length ∧
      (0, (["a", "a"] : List String)).1 < 1 ∧
      (runLevels wEnv 1 1 [wGroup2] ([], 0)).2 <
        1 + (0, (["a", "a"] : List String)).2.length) ∧
    1 < (runLevels wEnv 1 1 [wGroup2] ([], 0)).2 :=
  ⟨by decide,
   (C10_budget_overshoot wEnv 1 1 [wGroup2]).2.2.2.2
     (0, (["a", "a"] : List String)) (by decide),
   by decide⟩

end Borsaci
